import Mathlib

/-! Verification of the scanner in `lexer.go`.

A shallow embedding of `lexer.go` (package `main`): the token kinds, the slice
`tokens` and `Token.String`, the `Position` and `Lexer` records, `NewLexer`,
`Lexer.Lex`, `Lexer.resetPosition`, `Lexer.backup`, `Lexer.lexInt`,
`Lexer.lexIdent` and the token loop of `main`.

Conventions of the embedding.

* A rune is a `Char` (a Unicode scalar value, which is what `ReadRune` yields);
  a Go `string` built from runes is represented by its sequence of runes, a
  `List Char`.
* Go's `int` is `Int`; line and column counters are not wrapped at `2^63`
  (a column only grows by one per rune read).
* The `*bufio.Reader` is library code. It is modelled by the runes it has still
  to deliver, the condition its source reports once they are exhausted
  (`io.EOF` or a fault), and whether a rune is available to `UnreadRune`.
* The tables behind `unicode.IsSpace`, `unicode.IsDigit`, `unicode.IsLetter`
  are library data, taken as a parameter `U : UnicodeTables`.
* The `for { ... }` loops are bounded by a budget of one more iteration than
  there are runes left to read; a call that exhausts it yields `Run.timeout`,
  and `Lex` is shown never to do so.
-/

namespace GoLexer

/-! ## Library: errors, `unicode`, `bufio.Reader` -/

/-- Error values of the run-time library that the scanner can meet: `io.EOF`,
`bufio.ErrInvalidUnreadRune`, and any other read failure of the source. -/
inductive Error where
  | EOF
  | ErrInvalidUnreadRune
  | fault (code : Nat)
  deriving DecidableEq, Repr

/-- Outcome of running a piece of the program: it returns a value, it panics
with an error value, or the loop budget of the model is exhausted. -/
inductive Run (α : Type) where
  | done (a : α)
  | panic (err : Error)
  | timeout
  deriving DecidableEq, Repr

/-- The predicates of Go's `unicode` package used by the scanner, with the facts
about the Unicode tables that the proofs rely on: the newline is white space,
the three classes are pairwise disjoint, and the punctuation the scanner
dispatches on belongs to none of them. -/
structure UnicodeTables where
  IsSpace : Char → Bool
  IsDigit : Char → Bool
  IsLetter : Char → Bool
  newline_space : IsSpace '\n' = true
  digit_not_space : ∀ r, IsDigit r = true → IsSpace r = false
  letter_not_space : ∀ r, IsLetter r = true → IsSpace r = false
  letter_not_digit : ∀ r, IsLetter r = true → IsDigit r = false
  punct_unclassified : ∀ r, r ∈ [';', '+', '-', '*', '/', '=', '_'] →
    IsSpace r = false ∧ IsDigit r = false ∧ IsLetter r = false

/-- Model of `*bufio.Reader`: `buf` holds the runes not yet read, `endErr` is
the error the source reports on every read once `buf` is exhausted (a finite
input keeps reporting `io.EOF`), and `lastRune` is the rune that `UnreadRune`
may give back (the reader's `lastRuneSize >= 0`). -/
structure Reader where
  buf : List Char
  endErr : Error
  lastRune : Option Char
  deriving DecidableEq, Repr

/-- Model of `bufio.NewReader` over a source delivering `input` and then
reporting `endErr`. -/
def NewReader (input : List Char) (endErr : Error) : Reader :=
  { buf := input, endErr := endErr, lastRune := none }

/-- Model of `(*bufio.Reader).ReadRune`: delivers the next rune and remembers
it for `UnreadRune`, or reports the error of the source. -/
def ReadRune (b : Reader) : Except Error Char × Reader :=
  match b.buf with
  | [] => (.error b.endErr, { b with lastRune := none })
  | r :: rs => (.ok r, { b with buf := rs, lastRune := some r })

/-- Model of `(*bufio.Reader).UnreadRune`: gives back the rune of the directly
preceding successful `ReadRune`, and fails with `ErrInvalidUnreadRune` when the
last operation on the reader was not one. -/
def UnreadRune (b : Reader) : Option Error × Reader :=
  match b.lastRune with
  | none => (some Error.ErrInvalidUnreadRune, b)
  | some r => (none, { b with buf := r :: b.buf, lastRune := none })

/-! ## The program -/

/-- Go: `type Token int`. -/
abbrev Token := Int

/-- Go: `EOF Token = iota`. -/
def EOF : Token := 0
/-- Go: `ILLEGAL`. -/
def ILLEGAL : Token := 1
/-- Go: `IDENT`. -/
def IDENT : Token := 2
/-- Go: `INT`. -/
def INT : Token := 3
/-- Go: `SEMI`. -/
def SEMI : Token := 4
/-- Go: `ADD`. -/
def ADD : Token := 5
/-- Go: `SUB`. -/
def SUB : Token := 6
/-- Go: `MUL`. -/
def MUL : Token := 7
/-- Go: `DIV`. -/
def DIV : Token := 8
/-- Go: `ASSIGN`. -/
def ASSIGN : Token := 9

/-- Go: `var tokens = []string{EOF: "EOF", ILLEGAL: "ILLEGAL", ...}`, the slice
of display names indexed by kind. -/
def tokens : List (List Char) :=
  ["EOF".toList, "ILLEGAL".toList, "IDENT".toList, "INT".toList, ";".toList, "+".toList,
    "-".toList, "*".toList, "/".toList, "=".toList]

/-- Go: `func (t Token) String() string { return tokens[int(t)] }`. Indexing a
slice with a negative index or one past its length is a run-time panic (index
out of range); `none` stands for that panic. -/
def Token.String (t : Token) : Option (List Char) :=
  if 0 ≤ t then tokens[t.toNat]? else none

/-- Go: `type Position struct { line int; column int }`. -/
structure Position where
  line : Int
  column : Int
  deriving DecidableEq, Repr

/-- Go: `type Lexer struct { pos Position; reader *bufio.Reader }`. -/
structure Lexer where
  pos : Position
  reader : Reader
  deriving DecidableEq, Repr

/-- Go: `NewLexer`, over a source delivering `input` and then `endErr`. -/
def NewLexer (input : List Char) (endErr : Error) : Lexer :=
  { pos := { line := 1, column := 0 }, reader := NewReader input endErr }

/-- Go: `func (l *Lexer) resetPosition()`. -/
def resetPosition (l : Lexer) : Lexer :=
  { l with pos := { line := l.pos.line + 1, column := 0 } }

/-- Go: `func (l *Lexer) backup()`: panics when `UnreadRune` fails, otherwise
decrements the column. -/
def backup (l : Lexer) : Run Lexer :=
  match UnreadRune l.reader with
  | (some err, _) => Run.panic err
  | (none, rd) => Run.done { pos := { l.pos with column := l.pos.column - 1 }, reader := rd }

/-- The loop of `lexInt`, with `lit` the runes accumulated so far. -/
def lexIntLoop (U : UnicodeTables) : Nat → Lexer → List Char → Run (List Char × Lexer)
  | 0, _, _ => Run.timeout
  | fuel + 1, l, lit =>
    match ReadRune l.reader with
    | (.error err, rd) =>
      if err = Error.EOF then Run.done (lit, { l with reader := rd }) else Run.panic err
    | (.ok r, rd) =>
      let l1 : Lexer := { pos := { l.pos with column := l.pos.column + 1 }, reader := rd }
      if U.IsDigit r then lexIntLoop U fuel l1 (lit ++ [r])
      else
        match backup l1 with
        | Run.done l2 => Run.done (lit, l2)
        | Run.panic err => Run.panic err
        | Run.timeout => Run.timeout

/-- Go: `func (l *Lexer) lexInt() string`. -/
def lexInt (U : UnicodeTables) (l : Lexer) : Run (List Char × Lexer) :=
  lexIntLoop U (l.reader.buf.length + 1) l []

/-- The loop of `lexIdent`, with `lit` the runes accumulated so far. -/
def lexIdentLoop (U : UnicodeTables) : Nat → Lexer → List Char → Run (List Char × Lexer)
  | 0, _, _ => Run.timeout
  | fuel + 1, l, lit =>
    match ReadRune l.reader with
    | (.error err, rd) =>
      if err = Error.EOF then Run.done (lit, { l with reader := rd }) else Run.panic err
    | (.ok r, rd) =>
      let l1 : Lexer := { pos := { l.pos with column := l.pos.column + 1 }, reader := rd }
      if U.IsLetter r || U.IsDigit r || r == '_' then lexIdentLoop U fuel l1 (lit ++ [r])
      else
        match backup l1 with
        | Run.done l2 => Run.done (lit, l2)
        | Run.panic err => Run.panic err
        | Run.timeout => Run.timeout

/-- Go: `func (l *Lexer) lexIdent() string`. -/
def lexIdent (U : UnicodeTables) (l : Lexer) : Run (List Char × Lexer) :=
  lexIdentLoop U (l.reader.buf.length + 1) l []

/-- What one call of `Lex` returns: position, kind and lexeme. -/
abbrev Tok := Position × Token × List Char

/-- The loop of `Lex`. -/
def LexLoop (U : UnicodeTables) : Nat → Lexer → Run (Tok × Lexer)
  | 0, _ => Run.timeout
  | fuel + 1, l =>
    match ReadRune l.reader with
    | (.error err, rd) =>
      if err = Error.EOF then Run.done ((l.pos, EOF, []), { l with reader := rd })
      else Run.panic err
    | (.ok r, rd) =>
      let l1 : Lexer := { pos := { l.pos with column := l.pos.column + 1 }, reader := rd }
      if r = '\n' then LexLoop U fuel (resetPosition l1)
      else if r = ';' then Run.done ((l1.pos, SEMI, [';']), l1)
      else if r = '+' then Run.done ((l1.pos, ADD, ['+']), l1)
      else if r = '-' then Run.done ((l1.pos, SUB, ['-']), l1)
      else if r = '*' then Run.done ((l1.pos, MUL, ['*']), l1)
      else if r = '/' then Run.done ((l1.pos, DIV, ['/']), l1)
      else if r = '=' then Run.done ((l1.pos, ASSIGN, ['=']), l1)
      else if U.IsSpace r then LexLoop U fuel l1
      else if U.IsDigit r then
        let startPos := l1.pos
        match backup l1 with
        | Run.done l2 =>
          match lexInt U l2 with
          | Run.done (lit, l3) => Run.done ((startPos, INT, lit), l3)
          | Run.panic err => Run.panic err
          | Run.timeout => Run.timeout
        | Run.panic err => Run.panic err
        | Run.timeout => Run.timeout
      else if U.IsLetter r || r == '_' then
        let startPos := l1.pos
        match backup l1 with
        | Run.done l2 =>
          match lexIdent U l2 with
          | Run.done (lit, l3) => Run.done ((startPos, IDENT, lit), l3)
          | Run.panic err => Run.panic err
          | Run.timeout => Run.timeout
        | Run.panic err => Run.panic err
        | Run.timeout => Run.timeout
      else Run.done ((l1.pos, ILLEGAL, [r]), l1)

/-- Go: `func (l *Lexer) Lex() (Position, Token, string)`. -/
def Lex (U : UnicodeTables) (l : Lexer) : Run (Tok × Lexer) :=
  LexLoop U (l.reader.buf.length + 1) l

/-- The token loop of `main`: calls `Lex` until it returns `EOF`; the value is
the list of tokens printed (all the tokens before the first `EOF`). -/
def mainLoop (U : UnicodeTables) : Nat → Lexer → Run (List Tok)
  | 0, _ => Run.timeout
  | fuel + 1, l =>
    match Lex U l with
    | Run.done (t, l1) =>
      if t.2.1 = EOF then Run.done []
      else
        match mainLoop U fuel l1 with
        | Run.done ts => Run.done (t :: ts)
        | Run.panic err => Run.panic err
        | Run.timeout => Run.timeout
    | Run.panic err => Run.panic err
    | Run.timeout => Run.timeout

/-- The tokens `main` prints for a lexer `l`. -/
def scan (U : UnicodeTables) (l : Lexer) : Run (List Tok) :=
  mainLoop U (l.reader.buf.length + 1) l

/-! ## An instance of the Unicode tables -/

/-- Go's `unicode.IsSpace` on Latin-1: tab, LF, VT, FF, CR, space, NEL, NBSP. -/
def latin1IsSpace (r : Char) : Bool :=
  r.toNat = 9 || r.toNat = 10 || r.toNat = 11 || r.toNat = 12 || r.toNat = 13 ||
  r.toNat = 32 || r.toNat = 133 || r.toNat = 160

/-- Go's `unicode.IsDigit` on Latin-1: the ten ASCII digits. -/
def latin1IsDigit (r : Char) : Bool :=
  decide (48 ≤ r.toNat) && decide (r.toNat ≤ 57)

/-- Go's `unicode.IsLetter` on Latin-1: `A-Z`, `a-z`, U+00AA, U+00B5, U+00BA,
U+00C0..U+00D6, U+00D8..U+00F6, U+00F8..U+00FF. -/
def latin1IsLetter (r : Char) : Bool :=
  (decide (65 ≤ r.toNat) && decide (r.toNat ≤ 90)) ||
  (decide (97 ≤ r.toNat) && decide (r.toNat ≤ 122)) ||
  r.toNat = 170 || r.toNat = 181 || r.toNat = 186 ||
  (decide (192 ≤ r.toNat) && decide (r.toNat ≤ 214)) ||
  (decide (216 ≤ r.toNat) && decide (r.toNat ≤ 246)) ||
  (decide (248 ≤ r.toNat) && decide (r.toNat ≤ 255))

/-- Tables that agree with Go's `unicode` package on the runes U+0000..U+00FF
and put no rune beyond U+00FF in any class. -/
def latin1 : UnicodeTables where
  IsSpace := latin1IsSpace
  IsDigit := latin1IsDigit
  IsLetter := latin1IsLetter
  newline_space := by decide
  digit_not_space := by
    intro r h
    simp only [latin1IsDigit, latin1IsSpace, Bool.and_eq_true, Bool.or_eq_false_iff,
      decide_eq_true_eq, decide_eq_false_iff_not] at *
    omega
  letter_not_space := by
    intro r h
    simp only [latin1IsLetter, latin1IsSpace, Bool.and_eq_true, Bool.or_eq_true,
      Bool.or_eq_false_iff, decide_eq_true_eq, decide_eq_false_iff_not] at *
    omega
  letter_not_digit := by
    intro r h
    simp only [latin1IsLetter, latin1IsDigit, Bool.and_eq_true, Bool.or_eq_true,
      Bool.and_eq_false_imp, decide_eq_true_eq, decide_eq_false_iff_not] at *
    omega
  punct_unclassified := by
    intro r h
    simp only [List.mem_cons, List.mem_singleton, List.not_mem_nil, or_false] at h
    rcases h with h | h | h | h | h | h | h <;> subst h <;> decide

/-! ## Vocabulary of the statements -/

/-- A rune the loop of `Lex` skips: the newline of `case` and the white space
of `unicode.IsSpace`. -/
def isBlank (U : UnicodeTables) (r : Char) : Bool :=
  r == '\n' || U.IsSpace r

/-- A rune `lexIdent` accumulates. -/
def isIdentRune (U : UnicodeTables) (r : Char) : Bool :=
  U.IsLetter r || U.IsDigit r || r == '_'

/-- The kind `Lex` returns for a one-rune operator, if the rune is one. -/
def opToken (r : Char) : Option Token :=
  if r = ';' then some SEMI
  else if r = '+' then some ADD
  else if r = '-' then some SUB
  else if r = '*' then some MUL
  else if r = '/' then some DIV
  else if r = '=' then some ASSIGN
  else none

/-- The cursor after one more rune has been consumed: a newline starts a new
line at column 0, any other rune adds one to the column. -/
def advance (p : Position) (r : Char) : Position :=
  if r = '\n' then { line := p.line + 1, column := 0 }
  else { line := p.line, column := p.column + 1 }

/-- The cursor after the runes `w` have been consumed, starting from `p`. -/
def cursorAfter (p : Position) (w : List Char) : Position :=
  w.foldl advance p

/-- The outcome of the call of `Lex` made after `n` earlier calls on `l`
have returned. -/
def LexAfter (U : UnicodeTables) : Nat → Lexer → Run (Tok × Lexer)
  | 0, l => Lex U l
  | n + 1, l =>
    match Lex U l with
    | Run.done (_, l1) => LexAfter U n l1
    | Run.panic err => Run.panic err
    | Run.timeout => Run.timeout

/-- Whether `Lex` hands a token starting with `c` to a sub-scanner. -/
def isRun (U : UnicodeTables) (c : Char) : Bool :=
  (opToken c).isNone && (U.IsDigit c || (U.IsLetter c || c == '_'))

/-- Closed form used in the proofs: kind, lexeme and remaining input of the
token that starts with the rune `c` followed by `rest`. -/
def tokenAt (U : UnicodeTables) (c : Char) (rest : List Char) : Token × List Char × List Char :=
  match opToken c with
  | some t => (t, [c], rest)
  | none =>
    if U.IsDigit c then (INT, c :: rest.takeWhile U.IsDigit, rest.dropWhile U.IsDigit)
    else if U.IsLetter c || c == '_' then
      (IDENT, c :: rest.takeWhile (isIdentRune U), rest.dropWhile (isIdentRune U))
    else (ILLEGAL, [c], rest)

/-- Closed form used in the proofs: the outcome of one call of `Lex`. -/
def lexRef (U : UnicodeTables) (l : Lexer) : Run (Tok × Lexer) :=
  let q := cursorAfter l.pos (l.reader.buf.takeWhile (isBlank U))
  match l.reader.buf.dropWhile (isBlank U) with
  | [] =>
    if l.reader.endErr = Error.EOF then Run.done ((q, EOF, []), ⟨q, ⟨[], Error.EOF, none⟩⟩)
    else Run.panic l.reader.endErr
  | c :: rest =>
    let r := tokenAt U c rest
    if isRun U c then
      if r.2.2 = [] ∧ l.reader.endErr ≠ Error.EOF then Run.panic l.reader.endErr
      else Run.done ((⟨q.line, q.column + 1⟩, r.1, r.2.1),
        ⟨⟨q.line, q.column + r.2.1.length⟩, ⟨r.2.2, l.reader.endErr, none⟩⟩)
    else Run.done ((⟨q.line, q.column + 1⟩, r.1, r.2.1),
      ⟨⟨q.line, q.column + 1⟩, ⟨r.2.2, l.reader.endErr, some c⟩⟩)

/-- Kind and lexeme of a token, without its position. -/
def kindLexeme (t : Tok) : Token × List Char :=
  (t.2.1, t.2.2)

/-- Closed form used in the proofs: kinds and lexemes of the tokens of `buf`. -/
def tokensOf (U : UnicodeTables) : Nat → List Char → List (Token × List Char)
  | 0, _ => []
  | n + 1, buf =>
    match buf.dropWhile (isBlank U) with
    | [] => []
    | c :: rest =>
      ((tokenAt U c rest).1, (tokenAt U c rest).2.1) :: tokensOf U n (tokenAt U c rest).2.2

/-! ## Lemmas on the sub-scanners -/

section Lemmas

variable (U : UnicodeTables)

theorem digit_not_blank {r : Char} (h : U.IsDigit r = true) : isBlank U r = false := by
  have h1 := U.digit_not_space r h
  have h2 : r ≠ '\n' := by
    rintro rfl
    rw [U.newline_space] at h1
    exact Bool.noConfusion h1
  simp [isBlank, h1, h2]

theorem lexIntLoop_eq (buf : List Char) :
    ∀ (fuel : Nat) (p : Position) (e : Error) (lr : Option Char) (lit : List Char),
      buf.length < fuel → (buf.dropWhile U.IsDigit = [] → e = Error.EOF) →
      lexIntLoop U fuel ⟨p, ⟨buf, e, lr⟩⟩ lit =
        Run.done (lit ++ buf.takeWhile U.IsDigit,
          ⟨⟨p.line, p.column + (buf.takeWhile U.IsDigit).length⟩,
            ⟨buf.dropWhile U.IsDigit, e, none⟩⟩) := by
  induction buf with
  | nil =>
    intro fuel p e lr lit hf he
    obtain ⟨n, rfl⟩ : ∃ n, fuel = n + 1 := ⟨fuel - 1, by simp at hf; omega⟩
    have he1 : e = Error.EOF := he rfl
    subst he1
    simp [lexIntLoop, ReadRune]
  | cons r rs ih =>
    intro fuel p e lr lit hf he
    obtain ⟨n, rfl⟩ : ∃ n, fuel = n + 1 := ⟨fuel - 1, by simp at hf; omega⟩
    have hn : rs.length < n := by simp at hf; omega
    by_cases hd : U.IsDigit r = true
    · have he1 : rs.dropWhile U.IsDigit = [] → e = Error.EOF := by
        intro h; apply he; simp [hd, h]
      simp only [lexIntLoop, ReadRune, hd, if_true]
      rw [ih n _ e (some r) (lit ++ [r]) hn he1]
      simp [hd]
      omega
    · simp [lexIntLoop, ReadRune, hd, backup, UnreadRune]

theorem lexIdentLoop_eq (buf : List Char) :
    ∀ (fuel : Nat) (p : Position) (e : Error) (lr : Option Char) (lit : List Char),
      buf.length < fuel → (buf.dropWhile (isIdentRune U) = [] → e = Error.EOF) →
      lexIdentLoop U fuel ⟨p, ⟨buf, e, lr⟩⟩ lit =
        Run.done (lit ++ buf.takeWhile (isIdentRune U),
          ⟨⟨p.line, p.column + (buf.takeWhile (isIdentRune U)).length⟩,
            ⟨buf.dropWhile (isIdentRune U), e, none⟩⟩) := by
  induction buf with
  | nil =>
    intro fuel p e lr lit hf he
    obtain ⟨n, rfl⟩ : ∃ n, fuel = n + 1 := ⟨fuel - 1, by simp at hf; omega⟩
    have he1 : e = Error.EOF := he rfl
    subst he1
    simp [lexIdentLoop, ReadRune]
  | cons r rs ih =>
    intro fuel p e lr lit hf he
    obtain ⟨n, rfl⟩ : ∃ n, fuel = n + 1 := ⟨fuel - 1, by simp at hf; omega⟩
    have hn : rs.length < n := by simp at hf; omega
    by_cases hd : isIdentRune U r = true
    · have he1 : rs.dropWhile (isIdentRune U) = [] → e = Error.EOF := by
        intro h; apply he; simp [hd, h]
      have hd1 : (U.IsLetter r || U.IsDigit r || r == '_') = true := hd
      simp only [lexIdentLoop, ReadRune, hd1, if_true]
      rw [ih n _ e (some r) (lit ++ [r]) hn he1]
      simp [hd]
      omega
    · have hd1 : ¬ (U.IsLetter r || U.IsDigit r || r == '_') = true := hd
      simp only [lexIdentLoop, ReadRune, hd1]
      simp [hd, backup, UnreadRune]

/-- The scanner state after `backup` following a successful read of `r`. -/
theorem backup_after_read (p : Position) (r : Char) (rs : List Char) (e : Error) :
    backup ⟨⟨p.line, p.column + 1⟩, ⟨rs, e, some r⟩⟩ = Run.done ⟨p, ⟨r :: rs, e, none⟩⟩ := by
  simp [backup, UnreadRune]

/-- The loop of `Lex` does not look at the rune kept for `UnreadRune`. -/
theorem LexLoop_lastRune (fuel : Nat) (p : Position) (buf : List Char) (e : Error)
    (lr lr1 : Option Char) :
    LexLoop U fuel ⟨p, ⟨buf, e, lr⟩⟩ = LexLoop U fuel ⟨p, ⟨buf, e, lr1⟩⟩ := by
  cases fuel with
  | zero => rfl
  | succ n => cases buf <;> simp [LexLoop, ReadRune]

theorem blank_not_op {r : Char} (h : isBlank U r = true) (hn : r ≠ '\n') :
    r ≠ ';' ∧ r ≠ '+' ∧ r ≠ '-' ∧ r ≠ '*' ∧ r ≠ '/' ∧ r ≠ '=' ∧ U.IsSpace r = true := by
  have hs : U.IsSpace r = true := by simpa [isBlank, hn] using h
  refine ⟨?_, ?_, ?_, ?_, ?_, ?_, hs⟩ <;>
  · intro hr
    have := (U.punct_unclassified r (by simp [hr])).1
    rw [hs] at this
    exact Bool.noConfusion this

/-- One iteration of the loop of `Lex` on a rune it skips. -/
theorem LexLoop_blank (fuel : Nat) (p : Position) (r : Char) (rs : List Char) (e : Error)
    (lr : Option Char) (h : isBlank U r = true) :
    LexLoop U (fuel + 1) ⟨p, ⟨r :: rs, e, lr⟩⟩ = LexLoop U fuel ⟨advance p r, ⟨rs, e, lr⟩⟩ := by
  by_cases hn : r = '\n'
  · subst hn
    simp only [LexLoop, ReadRune, if_true, resetPosition, advance]
    exact LexLoop_lastRune U _ _ _ _ _ _
  · obtain ⟨h1, h2, h3, h4, h5, h6, hs⟩ := blank_not_op U h hn
    simp only [LexLoop, ReadRune, hn, h1, h2, h3, h4, h5, h6, hs, if_true, if_false, advance]
    exact LexLoop_lastRune U _ _ _ _ _ _

/-- The loop of `Lex` over a run `w` of skipped runes. -/
theorem LexLoop_skip (w : List Char) :
    ∀ (fuel : Nat) (p : Position) (rest : List Char) (e : Error) (lr : Option Char),
      (∀ c ∈ w, isBlank U c = true) →
      LexLoop U (fuel + w.length) ⟨p, ⟨w ++ rest, e, lr⟩⟩ =
        LexLoop U fuel ⟨cursorAfter p w, ⟨rest, e, lr⟩⟩ := by
  induction w with
  | nil => intro fuel p rest e lr _; rfl
  | cons c cs ih =>
    intro fuel p rest e lr h
    have hc : isBlank U c = true := h c (by simp)
    have hcs : ∀ x ∈ cs, isBlank U x = true := fun x hx => h x (by simp [hx])
    have : fuel + (c :: cs).length = (fuel + cs.length) + 1 := by simp; omega
    rw [this, List.cons_append, LexLoop_blank U _ _ _ _ _ _ hc, ih _ _ _ _ _ hcs]
    rfl

/-- A call of `Lex` on a run `w` of skipped runes followed by `rest`. -/
theorem Lex_skip (w rest : List Char) (p : Position) (e : Error) (lr : Option Char)
    (h : ∀ c ∈ w, isBlank U c = true) :
    Lex U ⟨p, ⟨w ++ rest, e, lr⟩⟩ =
      LexLoop U (rest.length + 1) ⟨cursorAfter p w, ⟨rest, e, lr⟩⟩ := by
  have : (w ++ rest).length + 1 = (rest.length + 1) + w.length := by simp; omega
  simp only [Lex, this]
  exact LexLoop_skip U w _ p rest e lr h

/-- The loop of `Lex` at the end of a source that reports `io.EOF`. -/
theorem LexLoop_nil (fuel : Nat) (p : Position) (lr : Option Char) :
    LexLoop U (fuel + 1) ⟨p, ⟨[], Error.EOF, lr⟩⟩ =
      Run.done ((p, EOF, []), ⟨p, ⟨[], Error.EOF, none⟩⟩) := by
  simp [LexLoop, ReadRune]

/-- The loop of `Lex` on a one-rune operator. -/
theorem LexLoop_op (fuel : Nat) (p : Position) (c : Char) (rest : List Char) (e : Error)
    (lr : Option Char) (t : Token) (h : opToken c = some t) :
    LexLoop U (fuel + 1) ⟨p, ⟨c :: rest, e, lr⟩⟩ =
      Run.done ((⟨p.line, p.column + 1⟩, t, [c]),
        ⟨⟨p.line, p.column + 1⟩, ⟨rest, e, some c⟩⟩) := by
  unfold opToken at h
  split_ifs at h with h1 h2 h3 h4 h5 h6 <;> simp only [Option.some.injEq] at h <;>
    subst h <;> subst_vars <;> simp [LexLoop, ReadRune]

theorem digit_not_op {c : Char} (h : U.IsDigit c = true) :
    c ≠ '\n' ∧ c ≠ ';' ∧ c ≠ '+' ∧ c ≠ '-' ∧ c ≠ '*' ∧ c ≠ '/' ∧ c ≠ '=' ∧ c ≠ '_' ∧
      U.IsSpace c = false := by
  have hs := U.digit_not_space c h
  refine ⟨?_, ?_, ?_, ?_, ?_, ?_, ?_, ?_, hs⟩
  · rintro rfl
    rw [U.newline_space] at hs
    exact Bool.noConfusion hs
  all_goals
    intro hr
    have := (U.punct_unclassified c (by simp [hr])).2.1
    rw [h] at this
    exact Bool.noConfusion this

/-- The loop of `Lex` on a digit: the integer sub-scanner takes the whole run. -/
theorem LexLoop_digit (fuel : Nat) (p : Position) (c : Char) (rest : List Char) (e : Error)
    (lr : Option Char) (h : U.IsDigit c = true)
    (he : rest.dropWhile U.IsDigit = [] → e = Error.EOF) :
    LexLoop U (fuel + 1) ⟨p, ⟨c :: rest, e, lr⟩⟩ =
      Run.done ((⟨p.line, p.column + 1⟩, INT, c :: rest.takeWhile U.IsDigit),
        ⟨⟨p.line, p.column + 1 + (rest.takeWhile U.IsDigit).length⟩,
          ⟨rest.dropWhile U.IsDigit, e, none⟩⟩) := by
  obtain ⟨h0, h1, h2, h3, h4, h5, h6, _, hs⟩ := digit_not_op U h
  have he1 : (c :: rest).dropWhile U.IsDigit = [] → e = Error.EOF := by
    intro hh; apply he; simpa [h] using hh
  simp only [LexLoop, ReadRune, h0, h1, h2, h3, h4, h5, h6, hs, h, if_true, if_false,
    backup_after_read, lexInt]
  rw [lexIntLoop_eq U (c :: rest) _ p e none [] (by simp) he1]
  simp [h]
  omega

theorem identStart_not_op {c : Char} (h : (U.IsLetter c || c == '_') = true) :
    c ≠ '\n' ∧ c ≠ ';' ∧ c ≠ '+' ∧ c ≠ '-' ∧ c ≠ '*' ∧ c ≠ '/' ∧ c ≠ '=' ∧
      U.IsSpace c = false ∧ U.IsDigit c = false := by
  have hsd : U.IsSpace c = false ∧ U.IsDigit c = false := by
    rcases Bool.or_eq_true _ _ ▸ h with hl | hu
    · exact ⟨U.letter_not_space c hl, U.letter_not_digit c hl⟩
    · have hu1 : c = '_' := by simpa using hu
      have := U.punct_unclassified c (by simp [hu1])
      exact ⟨this.1, this.2.1⟩
  have hop : ∀ x ∈ [';', '+', '-', '*', '/', '='], c ≠ x := by
    intro x hx hcx
    rcases Bool.or_eq_true _ _ ▸ h with hl | hu
    · have := (U.punct_unclassified c (by
        subst hcx
        simp only [List.mem_cons, List.mem_singleton, List.not_mem_nil, or_false] at hx ⊢
        tauto)).2.2
      rw [hl] at this
      exact Bool.noConfusion this
    · have hu1 : c = '_' := by simpa using hu
      subst hu1
      subst hcx
      revert hx
      decide
  refine ⟨?_, hop _ (by simp), hop _ (by simp), hop _ (by simp), hop _ (by simp),
    hop _ (by simp), hop _ (by simp), hsd.1, hsd.2⟩
  rintro rfl
  have := hsd.1
  rw [U.newline_space] at this
  exact Bool.noConfusion this

/-- The loop of `Lex` on a letter or underscore: the identifier sub-scanner
takes the whole run. -/
theorem LexLoop_ident (fuel : Nat) (p : Position) (c : Char) (rest : List Char) (e : Error)
    (lr : Option Char) (h : (U.IsLetter c || c == '_') = true)
    (he : rest.dropWhile (isIdentRune U) = [] → e = Error.EOF) :
    LexLoop U (fuel + 1) ⟨p, ⟨c :: rest, e, lr⟩⟩ =
      Run.done ((⟨p.line, p.column + 1⟩, IDENT, c :: rest.takeWhile (isIdentRune U)),
        ⟨⟨p.line, p.column + 1 + (rest.takeWhile (isIdentRune U)).length⟩,
          ⟨rest.dropWhile (isIdentRune U), e, none⟩⟩) := by
  obtain ⟨h0, h1, h2, h3, h4, h5, h6, hs, hd⟩ := identStart_not_op U h
  have hid : isIdentRune U c = true := by
    simp only [isIdentRune, Bool.or_eq_true] at h ⊢
    tauto
  have he1 : (c :: rest).dropWhile (isIdentRune U) = [] → e = Error.EOF := by
    intro hh; apply he; simpa [hid] using hh
  simp only [LexLoop, ReadRune, h0, h1, h2, h3, h4, h5, h6, hs, hd, h, if_true, if_false,
    backup_after_read, lexIdent, Bool.false_eq_true]
  rw [lexIdentLoop_eq U (c :: rest) _ p e none [] (by simp) he1]
  simp [hid]
  omega

/-- The loop of `Lex` on a rune of no recognised class. -/
theorem LexLoop_illegal (fuel : Nat) (p : Position) (c : Char) (rest : List Char) (e : Error)
    (lr : Option Char) (hb : isBlank U c = false) (ho : opToken c = none)
    (hd : U.IsDigit c = false) (hl : U.IsLetter c = false) (hu : c ≠ '_') :
    LexLoop U (fuel + 1) ⟨p, ⟨c :: rest, e, lr⟩⟩ =
      Run.done ((⟨p.line, p.column + 1⟩, ILLEGAL, [c]),
        ⟨⟨p.line, p.column + 1⟩, ⟨rest, e, some c⟩⟩) := by
  have hb1 : c ≠ '\n' ∧ U.IsSpace c = false := by simpa [isBlank] using hb
  have ho1 : c ≠ ';' ∧ c ≠ '+' ∧ c ≠ '-' ∧ c ≠ '*' ∧ c ≠ '/' ∧ c ≠ '=' := by
    unfold opToken at ho
    split_ifs at ho
    tauto
  obtain ⟨h1, h2, h3, h4, h5, h6⟩ := ho1
  simp [LexLoop, ReadRune, hb1.1, hb1.2, h1, h2, h3, h4, h5, h6, hd, hl, hu]

theorem lexIntLoop_fault (buf : List Char) :
    ∀ (fuel : Nat) (p : Position) (e : Error) (lr : Option Char) (lit : List Char),
      buf.length < fuel → buf.dropWhile U.IsDigit = [] → e ≠ Error.EOF →
      lexIntLoop U fuel ⟨p, ⟨buf, e, lr⟩⟩ lit = Run.panic e := by
  induction buf with
  | nil =>
    intro fuel p e lr lit hf _ he
    obtain ⟨n, rfl⟩ : ∃ n, fuel = n + 1 := ⟨fuel - 1, by simp at hf; omega⟩
    simp [lexIntLoop, ReadRune, he]
  | cons r rs ih =>
    intro fuel p e lr lit hf hdw he
    obtain ⟨n, rfl⟩ : ∃ n, fuel = n + 1 := ⟨fuel - 1, by simp at hf; omega⟩
    have hn : rs.length < n := by simp at hf; omega
    by_cases hd : U.IsDigit r = true
    · simp only [lexIntLoop, ReadRune, hd, if_true]
      exact ih n _ e (some r) (lit ++ [r]) hn (by simpa [hd] using hdw) he
    · simp [hd] at hdw

theorem lexIdentLoop_fault (buf : List Char) :
    ∀ (fuel : Nat) (p : Position) (e : Error) (lr : Option Char) (lit : List Char),
      buf.length < fuel → buf.dropWhile (isIdentRune U) = [] → e ≠ Error.EOF →
      lexIdentLoop U fuel ⟨p, ⟨buf, e, lr⟩⟩ lit = Run.panic e := by
  induction buf with
  | nil =>
    intro fuel p e lr lit hf _ he
    obtain ⟨n, rfl⟩ : ∃ n, fuel = n + 1 := ⟨fuel - 1, by simp at hf; omega⟩
    simp [lexIdentLoop, ReadRune, he]
  | cons r rs ih =>
    intro fuel p e lr lit hf hdw he
    obtain ⟨n, rfl⟩ : ∃ n, fuel = n + 1 := ⟨fuel - 1, by simp at hf; omega⟩
    have hn : rs.length < n := by simp at hf; omega
    by_cases hd : isIdentRune U r = true
    · have hd1 : (U.IsLetter r || U.IsDigit r || r == '_') = true := hd
      simp only [lexIdentLoop, ReadRune, hd1, if_true]
      exact ih n _ e (some r) (lit ++ [r]) hn (by simpa [hd] using hdw) he
    · simp [hd] at hdw

/-- The loop of `Lex` at the end of a source that reports a fault. -/
theorem LexLoop_nil_fault (fuel : Nat) (p : Position) (e : Error) (lr : Option Char)
    (he : e ≠ Error.EOF) :
    LexLoop U (fuel + 1) ⟨p, ⟨[], e, lr⟩⟩ = Run.panic e := by
  simp [LexLoop, ReadRune, he]

/-- The loop of `Lex` on a digit whose run reaches the end of a faulting source. -/
theorem LexLoop_digit_fault (fuel : Nat) (p : Position) (c : Char) (rest : List Char)
    (e : Error) (lr : Option Char) (h : U.IsDigit c = true)
    (hdw : rest.dropWhile U.IsDigit = []) (he : e ≠ Error.EOF) :
    LexLoop U (fuel + 1) ⟨p, ⟨c :: rest, e, lr⟩⟩ = Run.panic e := by
  obtain ⟨h0, h1, h2, h3, h4, h5, h6, _, hs⟩ := digit_not_op U h
  simp only [LexLoop, ReadRune, h0, h1, h2, h3, h4, h5, h6, hs, h, if_true, if_false,
    backup_after_read, lexInt]
  rw [lexIntLoop_fault U (c :: rest) _ p e none [] (by simp) (by simpa [h] using hdw) he]
  simp

/-- The loop of `Lex` on a letter or underscore whose run reaches the end of a
faulting source. -/
theorem LexLoop_ident_fault (fuel : Nat) (p : Position) (c : Char) (rest : List Char)
    (e : Error) (lr : Option Char) (h : (U.IsLetter c || c == '_') = true)
    (hdw : rest.dropWhile (isIdentRune U) = []) (he : e ≠ Error.EOF) :
    LexLoop U (fuel + 1) ⟨p, ⟨c :: rest, e, lr⟩⟩ = Run.panic e := by
  obtain ⟨h0, h1, h2, h3, h4, h5, h6, hs, hd⟩ := identStart_not_op U h
  have hid : isIdentRune U c = true := by
    simp only [isIdentRune, Bool.or_eq_true] at h ⊢
    tauto
  simp only [LexLoop, ReadRune, h0, h1, h2, h3, h4, h5, h6, hs, hd, h, if_true, if_false,
    backup_after_read, lexIdent, Bool.false_eq_true]
  rw [lexIdentLoop_fault U (c :: rest) _ p e none [] (by simp) (by simpa [hid] using hdw) he]

theorem dropWhile_head_false {p : Char → Bool} {l : List Char} {c : Char} {rest : List Char}
    (h : l.dropWhile p = c :: rest) : p c = false := by
  have := List.head?_dropWhile_not p l
  rw [h] at this
  simpa using this

theorem takeWhile_all {p : Char → Bool} (l : List Char) : ∀ c ∈ l.takeWhile p, p c = true :=
  fun _ hc => List.mem_takeWhile_imp hc

/-- One call of `Lex` computes the closed form `lexRef`. -/
theorem Lex_eq_lexRef (l : Lexer) : Lex U l = lexRef U l := by
  obtain ⟨p, ⟨buf, e, lr⟩⟩ := l
  have hskip := Lex_skip U (buf.takeWhile (isBlank U)) (buf.dropWhile (isBlank U)) p e lr
    (takeWhile_all buf)
  rw [List.takeWhile_append_dropWhile] at hskip
  rw [hskip]
  simp only [lexRef]
  generalize cursorAfter p (buf.takeWhile (isBlank U)) = q
  cases hdw : buf.dropWhile (isBlank U) with
  | nil =>
    by_cases he : e = Error.EOF
    · subst he
      simp [LexLoop_nil]
    · simp [LexLoop_nil_fault U _ _ _ _ he, he]
  | cons c rest =>
    have hb : isBlank U c = false := dropWhile_head_false hdw
    simp only [List.length_cons]
    cases hop : opToken c with
    | some t =>
      rw [LexLoop_op U _ q c rest e lr t hop]
      simp [isRun, tokenAt, hop]
    | none =>
      by_cases hd : U.IsDigit c = true
      · by_cases hf : rest.dropWhile U.IsDigit = [] ∧ e ≠ Error.EOF
        · rw [LexLoop_digit_fault U _ q c rest e lr hd hf.1 hf.2]
          simp [isRun, tokenAt, hop, hd, hf.1, hf.2]
        · have he : rest.dropWhile U.IsDigit = [] → e = Error.EOF := by
            intro h1
            by_contra h2
            exact hf ⟨h1, h2⟩
          rw [LexLoop_digit U _ q c rest e lr hd he]
          simp only [isRun, tokenAt, hop, hd, Option.isNone_none, Bool.true_or, Bool.and_self,
            if_true, hf, if_false, List.length_cons, Nat.cast_add, Nat.cast_one]
          rw [show ∀ n : Int, q.column + 1 + n = q.column + (n + 1) from fun n => by omega]
      · by_cases hl : (U.IsLetter c || c == '_') = true
        · by_cases hf : rest.dropWhile (isIdentRune U) = [] ∧ e ≠ Error.EOF
          · rw [LexLoop_ident_fault U _ q c rest e lr hl hf.1 hf.2]
            simp [isRun, tokenAt, hop, hd, hl, hf.1, hf.2]
          · have he : rest.dropWhile (isIdentRune U) = [] → e = Error.EOF := by
              intro h1
              by_contra h2
              exact hf ⟨h1, h2⟩
            rw [LexLoop_ident U _ q c rest e lr hl he]
            simp only [isRun, tokenAt, hop, hd, hl, Option.isNone_none, Bool.or_true,
              Bool.and_self, if_true, hf, if_false, List.length_cons, Nat.cast_add,
              Nat.cast_one, Bool.false_eq_true]
            rw [show ∀ n : Int, q.column + 1 + n = q.column + (n + 1) from fun n => by omega]
        · have hl1 : U.IsLetter c = false ∧ c ≠ '_' := by simpa using hl
          have hd1 : U.IsDigit c = false := by simpa using hd
          rw [LexLoop_illegal U _ q c rest e lr hb hop hd1 hl1.1 hl1.2]
          simp [isRun, tokenAt, hop, hd1, hl1.1, hl1.2]

theorem identRune_not_blank {r : Char} (h : isIdentRune U r = true) : isBlank U r = false := by
  simp only [isIdentRune, Bool.or_eq_true, beq_iff_eq] at h
  rcases h with (hl | hd) | hu
  · have h1 := U.letter_not_space r hl
    have h2 : r ≠ '\n' := by
      rintro rfl
      rw [U.newline_space] at h1
      exact Bool.noConfusion h1
    simp [isBlank, h1, h2]
  · exact digit_not_blank U hd
  · subst hu
    have := (U.punct_unclassified '_' (by simp)).1
    simp [isBlank, this]

theorem cursorAfter_append (p : Position) (a b : List Char) :
    cursorAfter p (a ++ b) = cursorAfter (cursorAfter p a) b := by
  simp [cursorAfter, List.foldl_append]

theorem cursorAfter_not_blank (x : List Char) :
    ∀ (q : Position), (∀ c ∈ x, isBlank U c = false) →
      cursorAfter q x = ⟨q.line, q.column + x.length⟩ := by
  induction x with
  | nil => intro q _; simp [cursorAfter]
  | cons c cs ih =>
    intro q h
    have hc : c ≠ '\n' := by
      have := h c (by simp)
      simp only [isBlank, Bool.or_eq_false_iff, beq_eq_false_iff_ne] at this
      exact this.1
    have hcs : ∀ y ∈ cs, isBlank U y = false := fun y hy => h y (by simp [hy])
    have h1 : cursorAfter q (c :: cs) = cursorAfter (advance q c) cs := rfl
    rw [h1, ih _ hcs]
    simp only [advance, hc, if_false, List.length_cons, Nat.cast_add, Nat.cast_one]
    congr 1
    omega

theorem cursorAfter_line (w : List Char) :
    ∀ (p : Position), (cursorAfter p w).line = p.line + w.count '\n' := by
  induction w with
  | nil => intro p; simp [cursorAfter]
  | cons c cs ih =>
    intro p
    have h1 : cursorAfter p (c :: cs) = cursorAfter (advance p c) cs := rfl
    rw [h1, ih]
    by_cases hc : c = '\n'
    · subst hc
      simp [advance]
      omega
    · have hc1 : ¬ ('\n' = c) := fun h => hc h.symm
      simp [advance, hc, List.count_cons, hc1]

theorem cursorAfter_column (w : List Char) (p : Position) :
    (cursorAfter p w).column =
      (if '\n' ∈ w then 0 else p.column) + ((w.reverse.takeWhile (fun c => c != '\n')).length : Int) := by
  induction w using List.reverseRecOn with
  | nil => simp [cursorAfter]
  | append_singleton cs c ih =>
    rw [cursorAfter_append]
    have h1 : cursorAfter (cursorAfter p cs) [c] = advance (cursorAfter p cs) c := rfl
    rw [h1]
    by_cases hc : c = '\n'
    · subst hc
      simp [advance]
    · have hc1 : ¬ ('\n' = c) := fun h => hc h.symm
      simp only [advance, hc, if_false, ih, List.reverse_append, List.reverse_cons,
        List.reverse_nil, List.nil_append, List.singleton_append, List.mem_append,
        List.mem_singleton, hc1, or_false]
      rw [List.takeWhile_cons_of_pos (by simpa using hc)]
      simp only [List.length_cons, Nat.cast_add, Nat.cast_one]
      omega

/-- Facts about the closed form of the token starting at a rune that is not skipped. -/
theorem tokenAt_spec (c : Char) (rest : List Char) (hb : isBlank U c = false) :
    c :: rest = (tokenAt U c rest).2.1 ++ (tokenAt U c rest).2.2 ∧
    (tokenAt U c rest).2.1 ≠ [] ∧
    (∀ x ∈ (tokenAt U c rest).2.1, isBlank U x = false) ∧
    (tokenAt U c rest).1 ≠ EOF ∧
    (isRun U c = false → (tokenAt U c rest).2.1 = [c]) := by
  unfold tokenAt isRun
  cases hop : opToken c with
  | some t =>
    have ht : t ≠ EOF := by
      unfold opToken at hop
      split_ifs at hop <;> simp only [Option.some.injEq] at hop <;> subst hop <;> decide
    simp [hb, ht]
  | none =>
    by_cases hd : U.IsDigit c = true
    · simp only [hd, if_true, List.cons_append, List.takeWhile_append_dropWhile, true_and,
        ne_eq, reduceCtorEq, not_false_eq_true, List.mem_cons, Option.isNone_none,
        Bool.true_or, Bool.and_self, Bool.true_eq_false, false_implies, and_true]
      refine ⟨?_, by decide⟩
      rintro x (rfl | hx)
      · exact hb
      · exact digit_not_blank U (takeWhile_all _ x hx)
    · by_cases hl : (U.IsLetter c || c == '_') = true
      · simp only [hd, hl, if_true, List.cons_append, List.takeWhile_append_dropWhile, true_and,
          ne_eq, reduceCtorEq, not_false_eq_true, List.mem_cons, Option.isNone_none,
          Bool.or_true, Bool.and_self, Bool.true_eq_false, false_implies, and_true,
          Bool.false_eq_true, if_false]
        refine ⟨?_, by decide⟩
        rintro x (rfl | hx)
        · exact hb
        · exact identRune_not_blank U (takeWhile_all _ x hx)
      · simp only [hd, hl, if_false, List.singleton_append, ne_eq, reduceCtorEq,
          not_false_eq_true, List.mem_singleton, forall_eq, hb, true_and, implies_true,
          and_true]
        decide

/-- What a returning call of `Lex` has done: it skipped a run `w` of white space
and newlines, and the lexeme is the part of the input after `w` and before the
remaining input. -/
theorem Lex_step (l : Lexer) (t : Tok) (l1 : Lexer) (h : Lex U l = Run.done (t, l1)) :
    ∃ w, l.reader.buf = w ++ t.2.2 ++ l1.reader.buf ∧
      w = l.reader.buf.takeWhile (isBlank U) ∧
      (∀ c ∈ w, isBlank U c = true) ∧ (∀ c ∈ t.2.2, isBlank U c = false) ∧
      l1.pos = cursorAfter l.pos (w ++ t.2.2) ∧
      l1.reader.endErr = l.reader.endErr ∧
      (t.2.1 = EOF → t.2.2 = [] ∧ t.1 = cursorAfter l.pos w ∧
        l1.reader = ⟨[], Error.EOF, none⟩) ∧
      (t.2.1 ≠ EOF → t.2.2 ≠ [] ∧
        t.1 = ⟨(cursorAfter l.pos w).line, (cursorAfter l.pos w).column + 1⟩) := by
  rw [Lex_eq_lexRef] at h
  refine ⟨l.reader.buf.takeWhile (isBlank U), ?_, rfl, takeWhile_all _, ?_⟩
  · unfold lexRef at h
    simp only at h
    split at h
    · rename_i hdw
      split_ifs at h with he
      simp only [Run.done.injEq, Prod.mk.injEq] at h
      obtain ⟨rfl, rfl⟩ := h
      have := List.takeWhile_append_dropWhile (isBlank U) l.reader.buf
      rw [hdw] at this
      simpa using this.symm
    · rename_i c rest hdw
      have hb : isBlank U c = false := dropWhile_head_false hdw
      obtain ⟨h1, -⟩ := tokenAt_spec U c rest hb
      have happ := List.takeWhile_append_dropWhile (isBlank U) l.reader.buf
      rw [hdw, h1] at happ
      split_ifs at h <;> simp only [Run.done.injEq, Prod.mk.injEq] at h <;>
        obtain ⟨rfl, rfl⟩ := h <;> simpa [List.append_assoc] using happ.symm
  · unfold lexRef at h
    simp only at h
    split at h
    · rename_i hdw
      split_ifs at h with he
      simp only [Run.done.injEq, Prod.mk.injEq] at h
      obtain ⟨rfl, rfl⟩ := h
      simp [he]
    · rename_i c rest hdw
      have hb : isBlank U c = false := dropWhile_head_false hdw
      obtain ⟨-, h2, h3, h4, h5⟩ := tokenAt_spec U c rest hb
      have hcur : ∀ q : Position, cursorAfter q (tokenAt U c rest).2.1 =
          ⟨q.line, q.column + (tokenAt U c rest).2.1.length⟩ :=
        fun q => cursorAfter_not_blank U _ q h3
      split_ifs at h with hr hf
      · simp only [Run.done.injEq, Prod.mk.injEq] at h
        obtain ⟨rfl, rfl⟩ := h
        simp only [cursorAfter_append, hcur]
        exact ⟨h3, trivial, trivial, fun h => absurd h h4, fun _ => ⟨h2, trivial⟩⟩
      · simp only [Run.done.injEq, Prod.mk.injEq] at h
        obtain ⟨rfl, rfl⟩ := h
        simp only [cursorAfter_append, hcur]
        have h6 := h5 (by simpa using hr)
        refine ⟨h3, ?_, trivial, fun h => absurd h h4, fun _ => ⟨h2, trivial⟩⟩
        simp [h6]

/-- A call of `Lex` never exhausts the loop budget of the model. -/
theorem Lex_ne_timeout (l : Lexer) : Lex U l ≠ Run.timeout := by
  rw [Lex_eq_lexRef]
  unfold lexRef
  simp only
  split
  · split_ifs <;> simp
  · split_ifs <;> simp

/-- On a source that ends with `io.EOF`, a call of `Lex` returns. -/
theorem Lex_returns (l : Lexer) (he : l.reader.endErr = Error.EOF) :
    ∃ t l1, Lex U l = Run.done (t, l1) := by
  rw [Lex_eq_lexRef]
  unfold lexRef
  simp only [he]
  split
  · simp
  · split_ifs with h1 h2
    · exact absurd rfl h2.2
    · exact ⟨_, _, rfl⟩
    · exact ⟨_, _, rfl⟩

/-- Cursor and token position along a sequence of calls of `Lex`, for a scanner
whose cursor is the one reached from line 1, column 0 over the runes `consumed`
read so far. -/
theorem LexAfter_cursor (n : Nat) :
    ∀ (l : Lexer) (consumed : List Char) (t : Tok) (l1 : Lexer),
      l.pos = cursorAfter ⟨1, 0⟩ consumed →
      LexAfter U n l = Run.done (t, l1) →
      ∃ pre, consumed ++ l.reader.buf = pre ++ t.2.2 ++ l1.reader.buf ∧
        l1.pos = cursorAfter ⟨1, 0⟩ (pre ++ t.2.2) ∧
        (t.2.1 = EOF → t.2.2 = [] ∧ t.1 = cursorAfter ⟨1, 0⟩ pre) ∧
        (t.2.1 ≠ EOF → t.2.2 ≠ [] ∧
          t.1 = ⟨(cursorAfter ⟨1, 0⟩ pre).line, (cursorAfter ⟨1, 0⟩ pre).column + 1⟩) := by
  induction n with
  | zero =>
    intro l consumed t l1 hpos h
    obtain ⟨w, hbuf, -, -, -, hp1, -, heof, hne⟩ := Lex_step U l t l1 h
    refine ⟨consumed ++ w, ?_, ?_, ?_, ?_⟩
    · rw [hbuf]; simp [List.append_assoc]
    · rw [hp1, hpos, ← cursorAfter_append, List.append_assoc]
    · intro h0
      obtain ⟨h1, h2, -⟩ := heof h0
      exact ⟨h1, by rw [h2, hpos, ← cursorAfter_append]⟩
    · intro h0
      obtain ⟨h1, h2⟩ := hne h0
      exact ⟨h1, by rw [h2, hpos, ← cursorAfter_append]⟩
  | succ n ih =>
    intro l consumed t l1 hpos h
    simp only [LexAfter] at h
    cases hL : Lex U l with
    | done r =>
      obtain ⟨t0, l0⟩ := r
      rw [hL] at h
      simp only at h
      obtain ⟨w, hbuf, -, -, -, hp1, -, -, -⟩ := Lex_step U l t0 l0 hL
      have hpos0 : l0.pos = cursorAfter ⟨1, 0⟩ (consumed ++ (w ++ t0.2.2)) := by
        rw [hp1, hpos, ← cursorAfter_append]
      obtain ⟨pre, h1, h2⟩ := ih l0 _ t l1 hpos0 h
      refine ⟨pre, ?_, h2⟩
      rw [← h1, hbuf]
      simp [List.append_assoc]
    | panic err => rw [hL] at h; simp at h
    | timeout => rw [hL] at h; simp at h

theorem dropWhile_length_le (p : Char → Bool) (l : List Char) :
    (l.dropWhile p).length ≤ l.length := by
  have := congrArg List.length (List.takeWhile_append_dropWhile p l)
  simp only [List.length_append] at this
  omega

theorem tokenAt_rest_length (c : Char) (rest : List Char) :
    (tokenAt U c rest).2.2.length ≤ rest.length := by
  unfold tokenAt
  cases opToken c with
  | some t => simp
  | none =>
    simp only
    split_ifs
    · exact dropWhile_length_le _ _
    · exact dropWhile_length_le _ _
    · simp

/-- On a source ending with `io.EOF`, a call of `Lex` on input that holds only
skipped runes returns `EOF`. -/
theorem Lex_blank_only (l : Lexer) (he : l.reader.endErr = Error.EOF)
    (hdw : l.reader.buf.dropWhile (isBlank U) = []) :
    Lex U l = Run.done ((cursorAfter l.pos l.reader.buf, EOF, []),
      ⟨cursorAfter l.pos l.reader.buf, ⟨[], Error.EOF, none⟩⟩) := by
  have htw : l.reader.buf.takeWhile (isBlank U) = l.reader.buf := by
    have := List.takeWhile_append_dropWhile (isBlank U) l.reader.buf
    rw [hdw, List.append_nil] at this
    exact this
  rw [Lex_eq_lexRef]
  simp only [lexRef, hdw, he, htw, if_true]

/-- On a source ending with `io.EOF`, a call of `Lex` on input whose first rune
not skipped is `c` returns the token given by `tokenAt`. -/
theorem Lex_tokenAt (l : Lexer) (he : l.reader.endErr = Error.EOF) (c : Char)
    (rest : List Char) (hdw : l.reader.buf.dropWhile (isBlank U) = c :: rest) :
    ∃ pos l1, Lex U l = Run.done ((pos, (tokenAt U c rest).1, (tokenAt U c rest).2.1), l1) ∧
      l1.reader.buf = (tokenAt U c rest).2.2 ∧ l1.reader.endErr = Error.EOF := by
  rw [Lex_eq_lexRef]
  simp only [lexRef, hdw, he, ne_eq, not_true_eq_false, and_false, if_false]
  split_ifs
  · exact ⟨_, _, rfl, rfl, rfl⟩
  · exact ⟨_, _, rfl, rfl, rfl⟩

/-- On a source ending with `io.EOF`, the token loop of `main` returns, and the
kinds and lexemes it prints are those of `tokensOf`. -/
theorem mainLoop_tokensOf (n : Nat) :
    ∀ (l : Lexer), l.reader.endErr = Error.EOF → l.reader.buf.length < n →
      ∃ ts, mainLoop U n l = Run.done ts ∧ ts.map kindLexeme = tokensOf U n l.reader.buf := by
  induction n with
  | zero => intro l _ h; simp at h
  | succ n ih =>
    intro l he hlen
    cases hdw : l.reader.buf.dropWhile (isBlank U) with
    | nil =>
      refine ⟨[], ?_, ?_⟩
      · simp [mainLoop, Lex_blank_only U l he hdw]
      · simp [tokensOf, hdw]
    | cons c rest =>
      obtain ⟨pos, l1, hL, hbuf, he1⟩ := Lex_tokenAt U l he c rest hdw
      have hne : (tokenAt U c rest).1 ≠ EOF :=
        (tokenAt_spec U c rest (dropWhile_head_false hdw)).2.2.2.1
      have hlen1 : l1.reader.buf.length < n := by
        have h1 := tokenAt_rest_length U c rest
        have h2 := dropWhile_length_le (isBlank U) l.reader.buf
        rw [hdw, List.length_cons] at h2
        rw [hbuf]
        omega
      obtain ⟨ts, hts, hkl⟩ := ih l1 he1 hlen1
      refine ⟨(pos, (tokenAt U c rest).1, (tokenAt U c rest).2.1) :: ts, ?_, ?_⟩
      · simp only [mainLoop, hL, hne, if_false, hts]
      · simp only [List.map_cons, hkl, tokensOf, hdw, kindLexeme, hbuf]

/-! ## Lemmas on the closed form of the token sequence -/

theorem tokensOf_fuel (n : Nat) :
    ∀ (m : Nat) (buf : List Char), buf.length < n → buf.length < m →
      tokensOf U n buf = tokensOf U m buf := by
  induction n with
  | zero => intro m buf h; simp at h
  | succ n ih =>
    intro m buf hn hm
    obtain ⟨k, rfl⟩ : ∃ k, m = k + 1 := ⟨m - 1, by omega⟩
    simp only [tokensOf]
    cases hdw : buf.dropWhile (isBlank U) with
    | nil => rfl
    | cons c rest =>
      have h1 := tokenAt_rest_length U c rest
      have h2 := dropWhile_length_le (isBlank U) buf
      rw [hdw, List.length_cons] at h2
      simp only
      rw [ih k _ (by omega) (by omega)]

theorem tokensOf_dropWhile (n : Nat) (buf : List Char) :
    tokensOf U (n + 1) (buf.dropWhile (isBlank U)) = tokensOf U (n + 1) buf := by
  have h : (buf.dropWhile (isBlank U)).dropWhile (isBlank U) = buf.dropWhile (isBlank U) := by
    cases hdw : buf.dropWhile (isBlank U) with
    | nil => rfl
    | cons c rest => simp [dropWhile_head_false hdw]
  simp only [tokensOf, h]

theorem filter_not_blank_of_blank (w : List Char) (h : ∀ c ∈ w, isBlank U c = true) :
    w.filter (fun c => !isBlank U c) = [] := by
  rw [List.filter_eq_nil_iff]
  intro c hc
  simp [h c hc]

theorem filter_not_blank_of_not_blank (x : List Char) (h : ∀ c ∈ x, isBlank U c = false) :
    x.filter (fun c => !isBlank U c) = x := by
  rw [List.filter_eq_self]
  intro c hc
  simp [h c hc]

/-- The lexemes of `tokensOf`, concatenated, are the runes that are not skipped. -/
theorem tokensOf_flatten (n : Nat) :
    ∀ (buf : List Char), buf.length < n →
      ((tokensOf U n buf).map (fun k => k.2)).flatten = buf.filter (fun c => !isBlank U c) := by
  induction n with
  | zero => intro buf h; simp at h
  | succ n ih =>
    intro buf hn
    have happ := List.takeWhile_append_dropWhile (isBlank U) buf
    have hw := filter_not_blank_of_blank U _ (takeWhile_all (p := isBlank U) buf)
    simp only [tokensOf]
    cases hdw : buf.dropWhile (isBlank U) with
    | nil =>
      rw [hdw, List.append_nil] at happ
      rw [← happ, hw]
      rfl
    | cons c rest =>
      obtain ⟨h1, -, h3, -, -⟩ := tokenAt_spec U c rest (dropWhile_head_false hdw)
      have h4 := tokenAt_rest_length U c rest
      have h5 := dropWhile_length_le (isBlank U) buf
      rw [hdw, List.length_cons] at h5
      simp only [List.map_cons, List.flatten_cons]
      rw [ih _ (by omega)]
      conv_rhs => rw [← happ, hdw, h1]
      simp only [List.filter_append, hw, List.nil_append,
        filter_not_blank_of_not_blank U _ h3]

/-- Every entry of `tokensOf` has a kind other than `EOF` and a non-empty lexeme
free of skipped runes, and there are at most as many entries as runes. -/
theorem tokensOf_entries (n : Nat) :
    ∀ (buf : List Char),
      (tokensOf U n buf).length ≤ buf.length ∧
      ∀ k ∈ tokensOf U n buf, k.1 ≠ EOF ∧ k.2 ≠ [] ∧ ∀ c ∈ k.2, isBlank U c = false := by
  induction n with
  | zero => intro buf; simp [tokensOf]
  | succ n ih =>
    intro buf
    simp only [tokensOf]
    cases hdw : buf.dropWhile (isBlank U) with
    | nil => simp
    | cons c rest =>
      obtain ⟨-, h2, h3, h4, -⟩ := tokenAt_spec U c rest (dropWhile_head_false hdw)
      have h5 := tokenAt_rest_length U c rest
      have h6 := dropWhile_length_le (isBlank U) buf
      rw [hdw, List.length_cons] at h6
      obtain ⟨ih1, ih2⟩ := ih (tokenAt U c rest).2.2
      refine ⟨by simp only [List.length_cons]; omega, ?_⟩
      intro k hk
      rcases List.mem_cons.mp hk with rfl | hk
      · exact ⟨h4, h2, h3⟩
      · exact ih2 k hk

theorem takeWhile_append_stop (p : Char → Bool) (xs : List Char) (y : Char) (ys : List Char)
    (hy : p y = false) : (xs ++ y :: ys).takeWhile p = xs.takeWhile p := by
  induction xs with
  | nil => simp [hy]
  | cons x xs ih =>
    by_cases hx : p x = true
    · simp [hx, ih]
    · simp [hx]

theorem dropWhile_append_stop (p : Char → Bool) (xs : List Char) (y : Char) (ys : List Char)
    (hy : p y = false) : (xs ++ y :: ys).dropWhile p = xs.dropWhile p ++ y :: ys := by
  induction xs with
  | nil => simp [hy]
  | cons x xs ih =>
    by_cases hx : p x = true
    · simp [hx, ih]
    · simp [hx]

theorem blank_not_digit {r : Char} (h : isBlank U r = true) : U.IsDigit r = false := by
  by_contra hd
  have := digit_not_blank U (by simpa using hd : U.IsDigit r = true)
  rw [h] at this
  exact Bool.noConfusion this

theorem blank_not_identRune {r : Char} (h : isBlank U r = true) : isIdentRune U r = false := by
  by_contra hd
  have := identRune_not_blank U (by simpa using hd : isIdentRune U r = true)
  rw [h] at this
  exact Bool.noConfusion this

/-- A skipped rune after `rest` ends the token that starts with `c` where the
end of the input would. -/
theorem tokenAt_append_blank (c : Char) (rest : List Char) (w : Char) (b : List Char)
    (hw : isBlank U w = true) :
    tokenAt U c (rest ++ w :: b) =
      ((tokenAt U c rest).1, (tokenAt U c rest).2.1, (tokenAt U c rest).2.2 ++ w :: b) := by
  unfold tokenAt
  cases opToken c with
  | some t => rfl
  | none =>
    simp only
    split_ifs
    · rw [takeWhile_append_stop _ _ _ _ (blank_not_digit U hw),
        dropWhile_append_stop _ _ _ _ (blank_not_digit U hw)]
    · rw [takeWhile_append_stop _ _ _ _ (blank_not_identRune U hw),
        dropWhile_append_stop _ _ _ _ (blank_not_identRune U hw)]
    · rfl

/-- The tokens of `a`, a skipped rune, then `b` are the tokens of `a` followed
by the tokens of `b`. -/
theorem tokensOf_append_blank (n : Nat) :
    ∀ (a : List Char) (m k : Nat) (w : Char) (b : List Char), isBlank U w = true →
      a.length < n → (a ++ w :: b).length < m → b.length < k →
      tokensOf U m (a ++ w :: b) = tokensOf U n a ++ tokensOf U k b := by
  induction n with
  | zero => intro a m k w b _ h; simp at h
  | succ n ih =>
    intro a m k w b hw hn hm hk
    obtain ⟨m1, rfl⟩ : ∃ m1, m = m1 + 1 := ⟨m - 1, by omega⟩
    have hlen : (a ++ w :: b).length = a.length + (b.length + 1) := by simp
    cases hdw : a.dropWhile (isBlank U) with
    | nil =>
      have ha : ∀ c ∈ a, isBlank U c = true := by
        have := List.takeWhile_append_dropWhile (isBlank U) a
        rw [hdw, List.append_nil] at this
        rw [← this]
        exact takeWhile_all a
      have h1 : (a ++ w :: b).dropWhile (isBlank U) = b.dropWhile (isBlank U) := by
        rw [List.dropWhile_append_of_pos (by simpa using ha),
          List.dropWhile_cons_of_pos (by simpa using hw)]
      have h2 : tokensOf U (n + 1) a = [] := by simp [tokensOf, hdw]
      rw [h2, List.nil_append, ← tokensOf_dropWhile U m1 (a ++ w :: b), h1,
        tokensOf_dropWhile U m1 b]
      exact tokensOf_fuel U _ _ _ (by omega) hk
    | cons c rest =>
      have h1 : (a ++ w :: b).dropWhile (isBlank U) = c :: (rest ++ w :: b) := by
        rw [List.dropWhile_append, hdw]
        simp
      have h3 := tokenAt_rest_length U c rest
      have h4 := dropWhile_length_le (isBlank U) a
      rw [hdw, List.length_cons] at h4
      simp only [tokensOf, h1, hdw, tokenAt_append_blank U c rest w b hw, List.cons_append]
      rw [ih (tokenAt U c rest).2.2 m1 k w b hw (by omega) (by simp; omega) hk]

/-! ## Lemmas on successive calls, kinds and panics -/

theorem cursorAfter_no_newline (w : List Char) :
    ∀ (p : Position), '\n' ∉ w → cursorAfter p w = ⟨p.line, p.column + w.length⟩ := by
  induction w with
  | nil => intro p _; simp [cursorAfter]
  | cons c cs ih =>
    intro p h
    have hc : c ≠ '\n' := fun hc => h (by simp [hc])
    have hcs : '\n' ∉ cs := fun hcs => h (by simp [hcs])
    have h1 : cursorAfter p (c :: cs) = cursorAfter (advance p c) cs := rfl
    rw [h1, ih _ hcs]
    simp only [advance, hc, if_false, List.length_cons, Nat.cast_add, Nat.cast_one]
    congr 1
    omega

/-- Consuming runes never lowers the line, and on an unchanged line the column
has grown by the number of runes consumed. -/
theorem cursorAfter_mono (p : Position) (w : List Char) :
    p.line ≤ (cursorAfter p w).line ∧
    ((cursorAfter p w).line = p.line →
      (cursorAfter p w).column = p.column + w.length ∧ '\n' ∉ w) := by
  rw [cursorAfter_line]
  refine ⟨by omega, fun h => ?_⟩
  have h0 : w.count '\n' = 0 := by omega
  have hn : '\n' ∉ w := List.count_eq_zero.mp h0
  rw [cursorAfter_no_newline w p hn]
  exact ⟨rfl, hn⟩

/-- The call made after `n + 1` earlier calls is the call made on the scanner
that the call after `n` earlier calls has left. -/
theorem LexAfter_succ (n : Nat) :
    ∀ (l : Lexer) (t : Tok) (l1 : Lexer), LexAfter U n l = Run.done (t, l1) →
      LexAfter U (n + 1) l = Lex U l1 := by
  induction n with
  | zero =>
    intro l t l1 h
    have h0 : Lex U l = Run.done (t, l1) := h
    simp only [LexAfter, h0]
  | succ n ih =>
    intro l t l1 h
    cases hL : Lex U l with
    | done r =>
      obtain ⟨t0, l0⟩ := r
      have h1 : LexAfter U n l0 = Run.done (t, l1) := by
        have h2 := h
        rw [LexAfter, hL] at h2
        exact h2
      have h3 : LexAfter U (n + 1 + 1) l = LexAfter U (n + 1) l0 := by
        rw [LexAfter, hL]
      rw [h3]
      exact ih l0 t l1 h1
    | panic err =>
      rw [LexAfter, hL] at h
      exact Run.noConfusion h
    | timeout =>
      rw [LexAfter, hL] at h
      exact Run.noConfusion h

/-- A call of `Lex` on the scanner left by a call that returned `EOF` returns
the same and leaves the scanner as it is. -/
theorem Lex_at_end (l : Lexer) (t : Tok) (l1 : Lexer) (h : Lex U l = Run.done (t, l1))
    (heof : t.2.1 = EOF) : Lex U l1 = Run.done (t, l1) := by
  obtain ⟨w, -, -, -, -, hp1, -, h1, -⟩ := Lex_step U l t l1 h
  obtain ⟨h2, h3, h4⟩ := h1 heof
  have hp : l1.pos = t.1 := by rw [hp1, h2, List.append_nil, h3]
  rw [Lex_blank_only U l1 (by rw [h4]) (by rw [h4]; rfl)]
  obtain ⟨p1, rd1⟩ := l1
  obtain ⟨tp, tk, tx⟩ := t
  simp only at hp h4 heof h2
  subst hp h4 heof h2
  rfl

/-- The kind of the closed form of a token is one of the nine kinds other than
`EOF`, and a token of kind `ILLEGAL` or of an operator kind has a one-rune
lexeme. -/
theorem tokenAt_kind (c : Char) (rest : List Char) :
    (tokenAt U c rest).1 ∈ [ILLEGAL, IDENT, INT, SEMI, ADD, SUB, MUL, DIV, ASSIGN] ∧
    ((tokenAt U c rest).1 ∈ [ILLEGAL, SEMI, ADD, SUB, MUL, DIV, ASSIGN] →
      (tokenAt U c rest).2.1 = [c]) := by
  unfold tokenAt
  cases hop : opToken c with
  | some t =>
    have ht : t ∈ [SEMI, ADD, SUB, MUL, DIV, ASSIGN] := by
      unfold opToken at hop
      split_ifs at hop <;> simp only [Option.some.injEq] at hop <;> subst hop <;> decide
    refine ⟨?_, fun _ => rfl⟩
    simp only [List.mem_cons, List.mem_singleton, List.not_mem_nil, or_false] at ht ⊢
    tauto
  | none =>
    have h1 : INT ∈ [ILLEGAL, IDENT, INT, SEMI, ADD, SUB, MUL, DIV, ASSIGN] := by decide
    have h2 : INT ∉ [ILLEGAL, SEMI, ADD, SUB, MUL, DIV, ASSIGN] := by decide
    have h3 : IDENT ∈ [ILLEGAL, IDENT, INT, SEMI, ADD, SUB, MUL, DIV, ASSIGN] := by decide
    have h4 : IDENT ∉ [ILLEGAL, SEMI, ADD, SUB, MUL, DIV, ASSIGN] := by decide
    have h5 : ILLEGAL ∈ [ILLEGAL, IDENT, INT, SEMI, ADD, SUB, MUL, DIV, ASSIGN] := by decide
    simp only
    split_ifs
    · exact ⟨h1, fun h => absurd h h2⟩
    · exact ⟨h3, fun h => absurd h h4⟩
    · exact ⟨h5, fun _ => rfl⟩

/-- The kind a call of `Lex` returns is one of the ten declared kinds, and a
token of kind `ILLEGAL` or of an operator kind has a one-rune lexeme. -/
theorem Lex_kind_lexeme (l : Lexer) (t : Tok) (l1 : Lexer) (h : Lex U l = Run.done (t, l1)) :
    t.2.1 ∈ [EOF, ILLEGAL, IDENT, INT, SEMI, ADD, SUB, MUL, DIV, ASSIGN] ∧
    (t.2.1 ∈ [ILLEGAL, SEMI, ADD, SUB, MUL, DIV, ASSIGN] → t.2.2.length = 1) := by
  rw [Lex_eq_lexRef] at h
  unfold lexRef at h
  simp only at h
  split at h
  · split_ifs at h
    simp only [Run.done.injEq, Prod.mk.injEq] at h
    obtain ⟨rfl, -⟩ := h
    have h0 : EOF ∉ [ILLEGAL, SEMI, ADD, SUB, MUL, DIV, ASSIGN] := by decide
    exact ⟨by simp, fun h => absurd h h0⟩
  · rename_i c rest hdw
    obtain ⟨h1, h2⟩ := tokenAt_kind U c rest
    split_ifs at h <;> simp only [Run.done.injEq, Prod.mk.injEq] at h <;>
      obtain ⟨rfl, -⟩ := h <;>
      exact ⟨List.mem_cons_of_mem _ h1, fun h3 => by simp only [h2 h3, List.length_singleton]⟩

/-- A call of `Lex` panics only with the error of a failed read of the source. -/
theorem Lex_panic (l : Lexer) (err : Error) (h : Lex U l = Run.panic err) :
    err = l.reader.endErr ∧ err ≠ Error.EOF := by
  rw [Lex_eq_lexRef] at h
  unfold lexRef at h
  simp only at h
  split at h
  · split_ifs at h with he
    simp only [Run.panic.injEq] at h
    exact ⟨h.symm, h ▸ he⟩
  · split_ifs at h with hr hf
    simp only [Run.panic.injEq] at h
    exact ⟨h.symm, h ▸ hf.2⟩

/-- The result of the call made after `n` earlier calls is the result of one
call of `Lex` on some scanner. -/
theorem LexAfter_last (n : Nat) :
    ∀ (l : Lexer) (t : Tok) (l1 : Lexer), LexAfter U n l = Run.done (t, l1) →
      ∃ l0, Lex U l0 = Run.done (t, l1) := by
  induction n with
  | zero => intro l t l1 h; exact ⟨l, h⟩
  | succ n ih =>
    intro l t l1 h
    cases hL : Lex U l with
    | done r =>
      obtain ⟨t0, l0⟩ := r
      rw [LexAfter, hL] at h
      exact ih l0 t l1 h
    | panic err =>
      rw [LexAfter, hL] at h
      exact Run.noConfusion h
    | timeout =>
      rw [LexAfter, hL] at h
      exact Run.noConfusion h

/-- Positions returned by two calls of `Lex` in a row. -/
theorem Lex_two_calls (l0 : Lexer) (t1 t2 : Tok) (l1 l2 : Lexer)
    (h1 : Lex U l0 = Run.done (t1, l1)) (h2 : Lex U l1 = Run.done (t2, l2)) :
    t1.1.line ≤ t2.1.line ∧
    (t1.1.line = t2.1.line → t1.1.column ≤ t2.1.column) ∧
    (t1.1.line < t2.1.line →
      ∃ w, l1.reader.buf = w ++ t2.2.2 ++ l2.reader.buf ∧ '\n' ∈ w) := by
  by_cases heof : t1.2.1 = EOF
  · have h3 := Lex_at_end U l0 t1 l1 h1 heof
    rw [h3] at h2
    simp only [Run.done.injEq, Prod.mk.injEq] at h2
    obtain ⟨rfl, rfl⟩ := h2
    exact ⟨le_refl _, fun _ => le_refl _, fun h => absurd h (lt_irrefl _)⟩
  · obtain ⟨w1, -, -, -, hx1, hp1, -, -, hne1⟩ := Lex_step U l0 t1 l1 h1
    obtain ⟨hx1ne, ht1⟩ := hne1 heof
    obtain ⟨w2, hbuf2, -, -, -, -, -, heof2, hne2⟩ := Lex_step U l1 t2 l2 h2
    have hlen : 0 < t1.2.2.length := List.length_pos.mpr hx1ne
    rw [cursorAfter_append, cursorAfter_not_blank U _ _ hx1] at hp1
    obtain ⟨hm1, hm2⟩ := cursorAfter_mono l1.pos w2
    have hl1 : l1.pos.line = t1.1.line := by rw [hp1, ht1]
    have hc1 : l1.pos.column = t1.1.column - 1 + t1.2.2.length := by rw [hp1, ht1]; simp
    have ht2 : t2.1.line = (cursorAfter l1.pos w2).line ∧
        (cursorAfter l1.pos w2).column ≤ t2.1.column := by
      by_cases heof2b : t2.2.1 = EOF
      · rw [(heof2 heof2b).2.1]
        exact ⟨rfl, le_refl _⟩
      · rw [(hne2 heof2b).2]
        exact ⟨rfl, by simp⟩
    refine ⟨by omega, fun h => ?_, fun h => ⟨w2, hbuf2, ?_⟩⟩
    · have := (hm2 (by omega)).1
      omega
    · by_contra hn
      have := cursorAfter_no_newline w2 l1.pos hn
      rw [this] at ht2
      simp only at ht2
      omega

end Lemmas

/-! ## Integer and identifier maximal munch -/

/-- C1 (integer maximal munch). When the remaining input is a run `w` of white
space and newlines followed by a digit `d`, `Lex` returns kind `INT`; the lexeme
is the longest run of digits starting at `d` (non-empty, digits only); the
remaining input afterwards is what follows that run, so its first rune, if there
is one, is not a digit and has not been consumed. The run may be ended by any
rune or by the end of the input (`hend`: a source whose data ends with the run
reports `io.EOF` there). -/
theorem Lex_integer_maximal_munch (U : UnicodeTables) (l : Lexer) (w : List Char) (d : Char)
    (rest : List Char)
    (hbuf : l.reader.buf = w ++ d :: rest)
    (hw : ∀ c ∈ w, isBlank U c = true)
    (hd : U.IsDigit d = true)
    (hend : rest.dropWhile U.IsDigit = [] → l.reader.endErr = Error.EOF) :
    ∃ pos lexeme l1,
      Lex U l = Run.done ((pos, INT, lexeme), l1) ∧
      lexeme = (d :: rest).takeWhile U.IsDigit ∧
      lexeme ≠ [] ∧ (∀ c ∈ lexeme, U.IsDigit c = true) ∧
      d :: rest = lexeme ++ l1.reader.buf ∧
      (∀ c ∈ l1.reader.buf.head?, U.IsDigit c = false) := by
  obtain ⟨p, ⟨buf, e, lr⟩⟩ := l
  simp only at hbuf hend
  subst hbuf
  have hLex := Lex_skip U w (d :: rest) p e lr hw
  rw [List.length_cons, LexLoop_digit U _ _ d rest e lr hd hend] at hLex
  have htw : d :: rest.takeWhile U.IsDigit = (d :: rest).takeWhile U.IsDigit := by simp [hd]
  rw [htw] at hLex
  refine ⟨_, _, _, hLex, rfl, ?_, takeWhile_all _, ?_, ?_⟩
  · simp [hd]
  · simp [hd]
  · intro c hc
    cases hdw : rest.dropWhile U.IsDigit with
    | nil => simp [hdw] at hc
    | cons x xs =>
      simp only [hdw, List.head?_cons, Option.mem_def, Option.some.injEq] at hc
      subst hc
      exact dropWhile_head_false hdw

/-- C1, at the input `" \n42+x"`: the token is `INT "42"` and `"+x"` remains. -/
theorem Lex_integer_maximal_munch_witness :
    (∀ c ∈ " \n".toList, isBlank latin1 c = true) ∧ latin1.IsDigit '4' = true ∧
    (∃ pos lexeme l1,
      Lex latin1 (NewLexer " \n42+x".toList Error.EOF) = Run.done ((pos, INT, lexeme), l1) ∧
      lexeme = ('4' :: "2+x".toList).takeWhile latin1.IsDigit ∧
      lexeme ≠ [] ∧ (∀ c ∈ lexeme, latin1.IsDigit c = true) ∧
      '4' :: "2+x".toList = lexeme ++ l1.reader.buf ∧
      (∀ c ∈ l1.reader.buf.head?, latin1.IsDigit c = false)) ∧
    Lex latin1 (NewLexer " \n42+x".toList Error.EOF) =
      Run.done ((⟨2, 1⟩, INT, "42".toList), ⟨⟨2, 2⟩, ⟨"+x".toList, Error.EOF, none⟩⟩) :=
  ⟨by decide, by decide,
    Lex_integer_maximal_munch latin1 (NewLexer " \n42+x".toList Error.EOF) " \n".toList '4'
      "2+x".toList (by decide) (by decide) (by decide) (by decide),
    by decide⟩

/-- C2 (identifier maximal munch). When the remaining input is a run `w` of
white space and newlines followed by a letter or underscore `c`, `Lex` returns
kind `IDENT`, whatever the word is; the lexeme is the longest run of letters,
digits and underscores starting at `c` (so digits after the first rune belong to
the identifier); the remaining input afterwards is what follows that run, so its
first rune, if there is one, is none of these and has not been consumed. -/
theorem Lex_identifier_maximal_munch (U : UnicodeTables) (l : Lexer) (w : List Char)
    (c : Char) (rest : List Char)
    (hbuf : l.reader.buf = w ++ c :: rest)
    (hw : ∀ x ∈ w, isBlank U x = true)
    (hc : U.IsLetter c = true ∨ c = '_')
    (hend : rest.dropWhile (fun x => U.IsLetter x || U.IsDigit x || x == '_') = [] →
      l.reader.endErr = Error.EOF) :
    ∃ pos lexeme l1,
      Lex U l = Run.done ((pos, IDENT, lexeme), l1) ∧
      lexeme = (c :: rest).takeWhile (fun x => U.IsLetter x || U.IsDigit x || x == '_') ∧
      lexeme ≠ [] ∧
      (∀ x ∈ lexeme, U.IsLetter x = true ∨ U.IsDigit x = true ∨ x = '_') ∧
      c :: rest = lexeme ++ l1.reader.buf ∧
      (∀ x ∈ l1.reader.buf.head?,
        U.IsLetter x = false ∧ U.IsDigit x = false ∧ x ≠ '_') := by
  obtain ⟨p, ⟨buf, e, lr⟩⟩ := l
  simp only at hbuf hend
  subst hbuf
  have hfun : (fun x => U.IsLetter x || U.IsDigit x || x == '_') = isIdentRune U := rfl
  rw [hfun] at hend ⊢
  have hc1 : (U.IsLetter c || c == '_') = true := by
    rcases hc with h | h <;> simp [h]
  have hid : isIdentRune U c = true := by
    rcases hc with h | h <;> simp [isIdentRune, h]
  have hLex := Lex_skip U w (c :: rest) p e lr hw
  rw [List.length_cons, LexLoop_ident U _ _ c rest e lr hc1 hend] at hLex
  have htw : c :: rest.takeWhile (isIdentRune U) = (c :: rest).takeWhile (isIdentRune U) := by
    simp [hid]
  rw [htw] at hLex
  refine ⟨_, _, _, hLex, rfl, ?_, ?_, ?_, ?_⟩
  · simp [hid]
  · intro x hx
    have := takeWhile_all (p := isIdentRune U) _ x hx
    simpa [isIdentRune, or_assoc] using this
  · simp [hid]
  · intro x hx
    cases hdw : rest.dropWhile (isIdentRune U) with
    | nil => simp [hdw] at hx
    | cons y ys =>
      simp only [hdw, List.head?_cons, Option.mem_def, Option.some.injEq] at hx
      subst hx
      have := dropWhile_head_false hdw
      simpa [isIdentRune, and_assoc] using this

/-- C2, at the input `"  return2 x"`: the keyword-like word with its digit is one
`IDENT "return2"`, and `" x"` remains. -/
theorem Lex_identifier_maximal_munch_witness :
    (∀ x ∈ "  ".toList, isBlank latin1 x = true) ∧
    (latin1.IsLetter 'r' = true ∨ 'r' = '_') ∧
    (∃ pos lexeme l1,
      Lex latin1 (NewLexer "  return2 x".toList Error.EOF) =
        Run.done ((pos, IDENT, lexeme), l1) ∧
      lexeme = ('r' :: "eturn2 x".toList).takeWhile
        (fun x => latin1.IsLetter x || latin1.IsDigit x || x == '_') ∧
      lexeme ≠ [] ∧
      (∀ x ∈ lexeme, latin1.IsLetter x = true ∨ latin1.IsDigit x = true ∨ x = '_') ∧
      'r' :: "eturn2 x".toList = lexeme ++ l1.reader.buf ∧
      (∀ x ∈ l1.reader.buf.head?,
        latin1.IsLetter x = false ∧ latin1.IsDigit x = false ∧ x ≠ '_')) ∧
    Lex latin1 (NewLexer "  return2 x".toList Error.EOF) =
      Run.done ((⟨1, 3⟩, IDENT, "return2".toList), ⟨⟨1, 9⟩, ⟨" x".toList, Error.EOF, none⟩⟩) ∧
    Lex latin1 (NewLexer "if".toList Error.EOF) =
      Run.done ((⟨1, 1⟩, IDENT, "if".toList), ⟨⟨1, 2⟩, ⟨[], Error.EOF, none⟩⟩) :=
  ⟨by decide, by decide,
    Lex_identifier_maximal_munch latin1 (NewLexer "  return2 x".toList Error.EOF) "  ".toList
      'r' "eturn2 x".toList (by decide) (by decide) (by decide) (by decide),
    by decide, by decide⟩

/-! ## Positions -/

/-- C3 (the position of a token is that of its first rune). For a scanner made
by `NewLexer` over `input`, let the call of `Lex` made after `n` earlier calls
return a token `t` that is not `EOF`, leaving `l1`. Then `input` splits as
`pre ++ lexeme ++ remaining input`, so that `pre` is what precedes the first
rune of the token, and the position of `t` has line `1 +` the number of
newlines in `pre` and column `1 +` the number of runes of `pre` after its last
newline (all of `pre` if it has none). -/
theorem Lex_position_is_first_rune (U : UnicodeTables) (input : List Char) (e : Error)
    (n : Nat) (t : Tok) (l1 : Lexer)
    (h : LexAfter U n (NewLexer input e) = Run.done (t, l1))
    (hne : t.2.1 ≠ EOF) :
    ∃ pre, input = pre ++ t.2.2 ++ l1.reader.buf ∧ t.2.2 ≠ [] ∧
      t.1.line = 1 + (pre.count '\n' : Int) ∧
      t.1.column = 1 + ((pre.reverse.takeWhile (fun c => c != '\n')).length : Int) := by
  obtain ⟨pre, h1, -, -, h3⟩ := LexAfter_cursor U n (NewLexer input e) [] t l1 rfl h
  obtain ⟨h4, h5⟩ := h3 hne
  refine ⟨pre, by simpa [NewLexer, NewReader] using h1, h4, ?_, ?_⟩
  · rw [h5]
    simp [cursorAfter_line]
  · rw [h5]
    simp only [cursorAfter_column, ite_self]
    omega

/-- C3, at the input `"ab\ncd"`: the second call returns `IDENT "cd"` at line 2,
column 1, after the first returned `IDENT "ab"` at line 1, column 1. -/
theorem Lex_position_is_first_rune_witness :
    LexAfter latin1 1 (NewLexer "ab\ncd".toList Error.EOF) =
      Run.done ((⟨2, 1⟩, IDENT, "cd".toList), ⟨⟨2, 2⟩, ⟨[], Error.EOF, none⟩⟩) ∧
    IDENT ≠ EOF ∧
    (∃ pre, "ab\ncd".toList = pre ++ "cd".toList ++ [] ∧ "cd".toList ≠ [] ∧
      (2 : Int) = 1 + (pre.count '\n' : Int) ∧
      (1 : Int) = 1 + ((pre.reverse.takeWhile (fun c => c != '\n')).length : Int)) ∧
    LexAfter latin1 0 (NewLexer "ab\ncd".toList Error.EOF) =
      Run.done ((⟨1, 1⟩, IDENT, "ab".toList), ⟨⟨1, 2⟩, ⟨"\ncd".toList, Error.EOF, none⟩⟩) :=
  ⟨by decide, by decide,
    Lex_position_is_first_rune latin1 "ab\ncd".toList Error.EOF 1
      (⟨2, 1⟩, IDENT, "cd".toList) ⟨⟨2, 2⟩, ⟨[], Error.EOF, none⟩⟩ (by decide) (by decide),
    by decide⟩

/-! ## The token sequence -/

/-- C4 (every rune that is not white space is accounted for exactly once). For
every input, the token loop reaches `EOF`, and the lexemes of the tokens before
it, concatenated in order, are the input with the newlines and white-space runes
removed. -/
theorem scan_lexemes_cover_input (U : UnicodeTables) (input : List Char) :
    ∃ ts, scan U (NewLexer input Error.EOF) = Run.done ts ∧
      (ts.map (fun t => t.2.2)).flatten = input.filter (fun c => !isBlank U c) := by
  obtain ⟨ts, h1, h2⟩ := mainLoop_tokensOf U (input.length + 1) (NewLexer input Error.EOF) rfl
    (Nat.lt_succ_self _)
  refine ⟨ts, h1, ?_⟩
  have h3 := tokensOf_flatten U (input.length + 1) input (Nat.lt_succ_self _)
  have h4 : ts.map (fun t => t.2.2) = (ts.map kindLexeme).map (fun k => k.2) := by
    simp [kindLexeme]
  rw [h4, h2]
  exact h3

/-- C5 (idempotence at the end of the input). Once a call of `Lex` has returned
kind `EOF`, its lexeme is empty and every later call on the scanner it left
returns the same position, kind and lexeme and leaves the scanner as it was. -/
theorem Lex_idempotent_at_end (U : UnicodeTables) (l : Lexer) (t : Tok) (l1 : Lexer)
    (h : Lex U l = Run.done (t, l1)) (heof : t.2.1 = EOF) :
    t.2.2 = [] ∧ ∀ n, LexAfter U n l1 = Run.done (t, l1) := by
  obtain ⟨w, -, -, -, -, hp1, -, h1, -⟩ := Lex_step U l t l1 h
  obtain ⟨h2, h3, h4⟩ := h1 heof
  have hp : l1.pos = t.1 := by rw [hp1, h2, List.append_nil, h3]
  have hL : Lex U l1 = Run.done (t, l1) := by
    rw [Lex_blank_only U l1 (by rw [h4]) (by rw [h4]; rfl)]
    obtain ⟨p1, rd1⟩ := l1
    obtain ⟨tp, tk, tx⟩ := t
    simp only at hp h4 heof h2
    subst hp h4 heof h2
    rfl
  refine ⟨h2, fun n => ?_⟩
  induction n with
  | zero => exact hL
  | succ n ih => simp only [LexAfter, hL, ih]

/-- C5, at the input `" \n"`: the first call returns `EOF` at line 2, column 0. -/
theorem Lex_idempotent_at_end_witness :
    Lex latin1 (NewLexer " \n".toList Error.EOF) =
      Run.done ((⟨2, 0⟩, EOF, []), ⟨⟨2, 0⟩, ⟨[], Error.EOF, none⟩⟩) ∧
    ([] : List Char) = [] ∧
    ∀ n, LexAfter latin1 n ⟨⟨2, 0⟩, ⟨[], Error.EOF, none⟩⟩ =
      Run.done ((⟨2, 0⟩, EOF, []), ⟨⟨2, 0⟩, ⟨[], Error.EOF, none⟩⟩) :=
  ⟨by decide,
    Lex_idempotent_at_end latin1 (NewLexer " \n".toList Error.EOF) (⟨2, 0⟩, EOF, [])
      ⟨⟨2, 0⟩, ⟨[], Error.EOF, none⟩⟩ (by decide) rfl⟩

/-! ## Single-rune tokens -/

/-- C6 (an illegal rune becomes a token and scanning goes on). When the
remaining input is a run `w` of white space and newlines followed by a rune `c`
that is no operator, no white space, no digit, no letter and no underscore,
`Lex` returns kind `ILLEGAL` with the one-rune lexeme `c` at the position of
`c` (the column after the runes of `w`, plus one), and leaves a scanner whose
cursor is at `c` and whose remaining input is what follows `c`, with the source
otherwise untouched: the state from which the next call scans the rest. -/
theorem Lex_illegal_rune (U : UnicodeTables) (l : Lexer) (w : List Char) (c : Char)
    (rest : List Char)
    (hbuf : l.reader.buf = w ++ c :: rest)
    (hw : ∀ x ∈ w, isBlank U x = true)
    (hop : c ∉ [';', '+', '-', '*', '/', '='])
    (hsp : isBlank U c = false)
    (hd : U.IsDigit c = false) (hl : U.IsLetter c = false) (hu : c ≠ '_') :
    Lex U l = Run.done
      ((⟨(cursorAfter l.pos w).line, (cursorAfter l.pos w).column + 1⟩, ILLEGAL, [c]),
        ⟨⟨(cursorAfter l.pos w).line, (cursorAfter l.pos w).column + 1⟩,
          ⟨rest, l.reader.endErr, some c⟩⟩) := by
  obtain ⟨p, ⟨buf, e, lr⟩⟩ := l
  simp only at hbuf
  subst hbuf
  have ho : opToken c = none := by
    simp only [List.mem_cons, List.mem_singleton, List.not_mem_nil, or_false, not_or] at hop
    obtain ⟨h1, h2, h3, h4, h5, h6⟩ := hop
    simp [opToken, h1, h2, h3, h4, h5, h6]
  rw [Lex_skip U w _ p e lr hw, List.length_cons, LexLoop_illegal U _ _ c rest e lr hsp ho hd hl hu]

/-- C6, at the input `"@"`: the first call returns `ILLEGAL "@"` at line 1,
column 1, and the next call returns `EOF`. -/
theorem Lex_illegal_rune_witness :
    (∀ x ∈ ([] : List Char), isBlank latin1 x = true) ∧
    '@' ∉ [';', '+', '-', '*', '/', '='] ∧ isBlank latin1 '@' = false ∧
    latin1.IsDigit '@' = false ∧ latin1.IsLetter '@' = false ∧ '@' ≠ '_' ∧
    Lex latin1 (NewLexer "@".toList Error.EOF) = Run.done
      ((⟨(cursorAfter (NewLexer "@".toList Error.EOF).pos []).line,
          (cursorAfter (NewLexer "@".toList Error.EOF).pos []).column + 1⟩, ILLEGAL, ['@']),
        ⟨⟨(cursorAfter (NewLexer "@".toList Error.EOF).pos []).line,
            (cursorAfter (NewLexer "@".toList Error.EOF).pos []).column + 1⟩,
          ⟨[], (NewLexer "@".toList Error.EOF).reader.endErr, some '@'⟩⟩) ∧
    LexAfter latin1 0 (NewLexer "@".toList Error.EOF) =
      Run.done ((⟨1, 1⟩, ILLEGAL, "@".toList), ⟨⟨1, 1⟩, ⟨[], Error.EOF, some '@'⟩⟩) ∧
    LexAfter latin1 1 (NewLexer "@".toList Error.EOF) =
      Run.done ((⟨1, 1⟩, EOF, []), ⟨⟨1, 1⟩, ⟨[], Error.EOF, none⟩⟩) :=
  ⟨by decide, by decide, by decide, by decide, by decide, by decide,
    Lex_illegal_rune latin1 (NewLexer "@".toList Error.EOF) [] '@' [] (by decide) (by decide)
      (by decide) (by decide) (by decide) (by decide) (by decide),
    by decide, by decide⟩

/-- C7 (one-rune operators). When the remaining input is a run `w` of white
space and newlines followed by one of `; + - * / =`, `Lex` returns respectively
`SEMI`, `ADD`, `SUB`, `MUL`, `DIV`, `ASSIGN` with that rune as lexeme, leaves as
remaining input what follows the rune, and reports the cursor taken after the
column was incremented for it: the line the cursor has after `w`, and the
column it has after `w` plus one. -/
theorem Lex_operator (U : UnicodeTables) (l : Lexer) (w : List Char) (c : Char) (t : Token)
    (rest : List Char)
    (hbuf : l.reader.buf = w ++ c :: rest)
    (hw : ∀ x ∈ w, isBlank U x = true)
    (hop : (c, t) ∈ [(';', SEMI), ('+', ADD), ('-', SUB), ('*', MUL), ('/', DIV),
      ('=', ASSIGN)]) :
    Lex U l = Run.done
      ((⟨(cursorAfter l.pos w).line, (cursorAfter l.pos w).column + 1⟩, t, [c]),
        ⟨⟨(cursorAfter l.pos w).line, (cursorAfter l.pos w).column + 1⟩,
          ⟨rest, l.reader.endErr, some c⟩⟩) := by
  obtain ⟨p, ⟨buf, e, lr⟩⟩ := l
  simp only at hbuf
  subst hbuf
  have ho : opToken c = some t := by
    simp only [List.mem_cons, Prod.mk.injEq, List.mem_singleton, List.not_mem_nil,
      or_false] at hop
    rcases hop with ⟨rfl, rfl⟩ | ⟨rfl, rfl⟩ | ⟨rfl, rfl⟩ | ⟨rfl, rfl⟩ | ⟨rfl, rfl⟩ | ⟨rfl, rfl⟩ <;>
      decide
  rw [Lex_skip U w _ p e lr hw, List.length_cons, LexLoop_op U _ _ c rest e lr t ho]

/-- C7, at the input `" \n +1"`: the token is `ADD "+"` at line 2, column 2. -/
theorem Lex_operator_witness :
    (∀ x ∈ " \n ".toList, isBlank latin1 x = true) ∧
    ('+', ADD) ∈ [(';', SEMI), ('+', ADD), ('-', SUB), ('*', MUL), ('/', DIV),
      ('=', ASSIGN)] ∧
    Lex latin1 (NewLexer " \n +1".toList Error.EOF) = Run.done
      ((⟨(cursorAfter (NewLexer " \n +1".toList Error.EOF).pos " \n ".toList).line,
          (cursorAfter (NewLexer " \n +1".toList Error.EOF).pos " \n ".toList).column + 1⟩,
          ADD, ['+']),
        ⟨⟨(cursorAfter (NewLexer " \n +1".toList Error.EOF).pos " \n ".toList).line,
            (cursorAfter (NewLexer " \n +1".toList Error.EOF).pos " \n ".toList).column + 1⟩,
          ⟨"1".toList, (NewLexer " \n +1".toList Error.EOF).reader.endErr, some '+'⟩⟩) ∧
    Lex latin1 (NewLexer " \n +1".toList Error.EOF) =
      Run.done ((⟨2, 2⟩, ADD, "+".toList), ⟨⟨2, 2⟩, ⟨"1".toList, Error.EOF, some '+'⟩⟩) :=
  ⟨by decide, by decide,
    Lex_operator latin1 (NewLexer " \n +1".toList Error.EOF) " \n ".toList '+' ADD "1".toList
      (by decide) (by decide) (by decide),
    by decide⟩

/-! ## White space -/

/-- C8 (input of white space only). For every input that holds only white-space
runes and newlines, the empty input included, the first call of `Lex` on a fresh
scanner returns kind `EOF` with the empty lexeme, at a line that is one plus the
number of newlines of the input, and the token loop prints no token. -/
theorem Lex_blank_input (U : UnicodeTables) (input : List Char)
    (h : ∀ c ∈ input, isBlank U c = true) :
    ∃ pos l1, Lex U (NewLexer input Error.EOF) = Run.done ((pos, EOF, []), l1) ∧
      pos.line = 1 + (input.count '\n' : Int) ∧
      scan U (NewLexer input Error.EOF) = Run.done [] := by
  have hdw : (NewLexer input Error.EOF).reader.buf.dropWhile (isBlank U) = [] := by
    simp only [NewLexer, NewReader]
    rw [List.dropWhile_eq_nil_iff]
    exact h
  have hL := Lex_blank_only U (NewLexer input Error.EOF) rfl hdw
  refine ⟨_, _, hL, ?_, ?_⟩
  · rw [cursorAfter_line]
    rfl
  · simp only [scan, mainLoop, hL, if_true]

/-- C8, at the input `" \n\t\n"`: `EOF` at line 3. -/
theorem Lex_blank_input_witness :
    (∀ c ∈ " \n\t\n".toList, isBlank latin1 c = true) ∧
    (∃ pos l1, Lex latin1 (NewLexer " \n\t\n".toList Error.EOF) =
        Run.done ((pos, EOF, []), l1) ∧
      pos.line = 1 + (" \n\t\n".toList.count '\n' : Int) ∧
      scan latin1 (NewLexer " \n\t\n".toList Error.EOF) = Run.done []) ∧
    Lex latin1 (NewLexer " \n\t\n".toList Error.EOF) =
      Run.done ((⟨3, 0⟩, EOF, []), ⟨⟨3, 0⟩, ⟨[], Error.EOF, none⟩⟩) :=
  ⟨by decide, Lex_blank_input latin1 " \n\t\n".toList (by decide), by decide⟩

/-- C9 (white space and newlines are transparent). Two inputs that differ only
in that the white-space rune (space, tab, newline, ...) at one index is another
white-space rune give the same sequence of kinds and lexemes up to `EOF`; and
for every input, each token before `EOF` has a non-empty lexeme that holds no
white-space rune and no newline. -/
theorem scan_blank_transparent (U : UnicodeTables) (a b : List Char) (c1 c2 : Char)
    (input : List Char)
    (h1 : isBlank U c1 = true) (h2 : isBlank U c2 = true) :
    (∃ ts1 ts2, scan U (NewLexer (a ++ c1 :: b) Error.EOF) = Run.done ts1 ∧
      scan U (NewLexer (a ++ c2 :: b) Error.EOF) = Run.done ts2 ∧
      ts1.map kindLexeme = ts2.map kindLexeme) ∧
    (∃ ts, scan U (NewLexer input Error.EOF) = Run.done ts ∧
      ∀ t ∈ ts, t.2.2 ≠ [] ∧ ∀ c ∈ t.2.2, isBlank U c = false) := by
  constructor
  · obtain ⟨ts1, hs1, hk1⟩ := mainLoop_tokensOf U ((a ++ c1 :: b).length + 1)
      (NewLexer (a ++ c1 :: b) Error.EOF) rfl (Nat.lt_succ_self _)
    obtain ⟨ts2, hs2, hk2⟩ := mainLoop_tokensOf U ((a ++ c2 :: b).length + 1)
      (NewLexer (a ++ c2 :: b) Error.EOF) rfl (Nat.lt_succ_self _)
    refine ⟨ts1, ts2, hs1, hs2, ?_⟩
    rw [hk1, hk2]
    simp only [NewLexer, NewReader]
    rw [tokensOf_append_blank U (a.length + 1) a _ (b.length + 1) c1 b h1 (Nat.lt_succ_self _)
        (Nat.lt_succ_self _) (Nat.lt_succ_self _),
      tokensOf_append_blank U (a.length + 1) a _ (b.length + 1) c2 b h2 (Nat.lt_succ_self _)
        (Nat.lt_succ_self _) (Nat.lt_succ_self _)]
  · obtain ⟨ts, hs, hk⟩ := mainLoop_tokensOf U (input.length + 1)
      (NewLexer input Error.EOF) rfl (Nat.lt_succ_self _)
    refine ⟨ts, hs, fun t ht => ?_⟩
    have hmem : kindLexeme t ∈ tokensOf U (input.length + 1) input := by
      have := List.mem_map_of_mem kindLexeme ht
      rw [hk] at this
      exact this
    have := (tokensOf_entries U (input.length + 1) input).2 _ hmem
    exact ⟨this.2.1, this.2.2⟩

/-- C9, at the inputs `"a b"` and `"a\nb"`, and `"x = 1"`. -/
theorem scan_blank_transparent_witness :
    isBlank latin1 ' ' = true ∧ isBlank latin1 '\n' = true ∧
    ((∃ ts1 ts2, scan latin1 (NewLexer ("a".toList ++ ' ' :: "b".toList) Error.EOF) =
        Run.done ts1 ∧
      scan latin1 (NewLexer ("a".toList ++ '\n' :: "b".toList) Error.EOF) = Run.done ts2 ∧
      ts1.map kindLexeme = ts2.map kindLexeme) ∧
    (∃ ts, scan latin1 (NewLexer "x = 1".toList Error.EOF) = Run.done ts ∧
      ∀ t ∈ ts, t.2.2 ≠ [] ∧ ∀ c ∈ t.2.2, isBlank latin1 c = false)) ∧
    scan latin1 (NewLexer "a b".toList Error.EOF) =
      Run.done [(⟨1, 1⟩, IDENT, "a".toList), (⟨1, 3⟩, IDENT, "b".toList)] ∧
    scan latin1 (NewLexer "a\nb".toList Error.EOF) =
      Run.done [(⟨1, 1⟩, IDENT, "a".toList), (⟨2, 1⟩, IDENT, "b".toList)] :=
  ⟨by decide, by decide,
    scan_blank_transparent latin1 "a".toList "b".toList ' ' '\n' "x = 1".toList
      (by decide) (by decide),
    by decide, by decide⟩

/-! ## Termination -/

/-- C10 (termination and progress). Every call of `Lex` ends within the loop
budget, and returns when the source ends with `io.EOF`; a call that returns a
token other than `EOF` leaves strictly fewer runes of remaining input than it
found; and for every input the token loop reaches `EOF` after at most as many
tokens as the input has runes. -/
theorem Lex_terminates_with_progress (U : UnicodeTables) (l : Lexer) (input : List Char) :
    Lex U l ≠ Run.timeout ∧
    (l.reader.endErr = Error.EOF → ∃ t l1, Lex U l = Run.done (t, l1)) ∧
    (∀ t l1, Lex U l = Run.done (t, l1) → t.2.1 ≠ EOF →
      l1.reader.buf.length < l.reader.buf.length) ∧
    (∃ ts, scan U (NewLexer input Error.EOF) = Run.done ts ∧ ts.length ≤ input.length) := by
  refine ⟨Lex_ne_timeout U l, Lex_returns U l, ?_, ?_⟩
  · intro t l1 h hne
    obtain ⟨w, hbuf, -, -, -, -, -, -, h1⟩ := Lex_step U l t l1 h
    have h2 := (h1 hne).1
    have h3 : 0 < t.2.2.length := List.length_pos.mpr h2
    rw [hbuf]
    simp only [List.length_append]
    omega
  · obtain ⟨ts, hs, hk⟩ := mainLoop_tokensOf U (input.length + 1)
      (NewLexer input Error.EOF) rfl (Nat.lt_succ_self _)
    refine ⟨ts, hs, ?_⟩
    have h1 := (tokensOf_entries U (input.length + 1) input).1
    have h2 := congrArg List.length hk
    simp only [List.length_map, NewLexer, NewReader] at h2
    omega

/-- C10, at a scanner on `"12 ab"` and the input `"x = 10 + 20;"`. -/
theorem Lex_terminates_with_progress_witness :
    (Lex latin1 (NewLexer "12 ab".toList Error.EOF) ≠ Run.timeout ∧
    ((NewLexer "12 ab".toList Error.EOF).reader.endErr = Error.EOF →
      ∃ t l1, Lex latin1 (NewLexer "12 ab".toList Error.EOF) = Run.done (t, l1)) ∧
    (∀ t l1, Lex latin1 (NewLexer "12 ab".toList Error.EOF) = Run.done (t, l1) →
      t.2.1 ≠ EOF → l1.reader.buf.length < (NewLexer "12 ab".toList Error.EOF).reader.buf.length) ∧
    (∃ ts, scan latin1 (NewLexer "x = 10 + 20;".toList Error.EOF) = Run.done ts ∧
      ts.length ≤ "x = 10 + 20;".toList.length)) ∧
    Lex latin1 (NewLexer "12 ab".toList Error.EOF) =
      Run.done ((⟨1, 1⟩, INT, "12".toList), ⟨⟨1, 2⟩, ⟨" ab".toList, Error.EOF, none⟩⟩) :=
  ⟨Lex_terminates_with_progress latin1 (NewLexer "12 ab".toList Error.EOF)
    "x = 10 + 20;".toList, by decide⟩

/-! ## Invariants of the cursor -/

/-- C11 (positions are monotone across calls). Let two calls of `Lex` in a row
on the same scanner, the calls made after `n` and after `n + 1` earlier ones,
return positions `t1.1` and `t2.1`, `EOF` tokens included. Then the line does
not go down, and on an equal line the column does not go down; so the column
goes down only when the line has gone up, and the line goes up only when the
second call has consumed a newline before its token. -/
theorem Lex_positions_monotone (U : UnicodeTables) (l : Lexer) (n : Nat) (t1 t2 : Tok)
    (l1 l2 : Lexer)
    (h1 : LexAfter U n l = Run.done (t1, l1))
    (h2 : LexAfter U (n + 1) l = Run.done (t2, l2)) :
    t1.1.line ≤ t2.1.line ∧
    (t1.1.line = t2.1.line → t1.1.column ≤ t2.1.column) ∧
    (t2.1.column < t1.1.column → t1.1.line < t2.1.line) ∧
    (t1.1.line < t2.1.line →
      ∃ w, l1.reader.buf = w ++ t2.2.2 ++ l2.reader.buf ∧ '\n' ∈ w) := by
  obtain ⟨l0, h0⟩ := LexAfter_last U n l t1 l1 h1
  rw [LexAfter_succ U n l t1 l1 h1] at h2
  obtain ⟨h3, h4, h5⟩ := Lex_two_calls U l0 t1 t2 l1 l2 h0 h2
  refine ⟨h3, h4, fun h => ?_, h5⟩
  by_contra h6
  have h7 : t1.1.line = t2.1.line := le_antisymm h3 (not_lt.mp h6)
  have := h4 h7
  omega

/-- C11, at the input `"ab\n c"`: `IDENT "ab"` at line 1, column 1, then
`IDENT "c"` at line 2, column 2. -/
theorem Lex_positions_monotone_witness :
    LexAfter latin1 0 (NewLexer "ab\n c".toList Error.EOF) =
      Run.done ((⟨1, 1⟩, IDENT, "ab".toList), ⟨⟨1, 2⟩, ⟨"\n c".toList, Error.EOF, none⟩⟩) ∧
    LexAfter latin1 (0 + 1) (NewLexer "ab\n c".toList Error.EOF) =
      Run.done ((⟨2, 2⟩, IDENT, "c".toList), ⟨⟨2, 2⟩, ⟨[], Error.EOF, none⟩⟩) ∧
    ((1 : Int) ≤ 2 ∧ ((1 : Int) = 2 → (1 : Int) ≤ 2) ∧ ((2 : Int) < 1 → (1 : Int) < 2) ∧
      ((1 : Int) < 2 → ∃ w, "\n c".toList = w ++ "c".toList ++ [] ∧ '\n' ∈ w)) :=
  ⟨by decide, by decide,
    Lex_positions_monotone latin1 (NewLexer "ab\n c".toList Error.EOF) 0
      (⟨1, 1⟩, IDENT, "ab".toList) (⟨2, 2⟩, IDENT, "c".toList)
      ⟨⟨1, 2⟩, ⟨"\n c".toList, Error.EOF, none⟩⟩ ⟨⟨2, 2⟩, ⟨[], Error.EOF, none⟩⟩
      (by decide) (by decide)⟩

/-- C12 (the cursor is consistent under reads and pushbacks). After every call
of `Lex` on a scanner made by `NewLexer` over `input`, the input splits as
`consumed ++ remaining input`, and the cursor has line `1 +` the number of
newlines in `consumed` and column the number of runes of `consumed` after its
last newline (all of `consumed` if it has none). A rune that a sub-scanner read
and pushed back is in the remaining input, so it counts for nothing, and the
cursor does not tell whether a run was ended by such a rune or by the end of
the input. -/
theorem Lex_cursor_consistent (U : UnicodeTables) (input : List Char) (e : Error) (n : Nat)
    (t : Tok) (l1 : Lexer)
    (h : LexAfter U n (NewLexer input e) = Run.done (t, l1)) :
    ∃ consumed, input = consumed ++ l1.reader.buf ∧
      l1.pos.line = 1 + (consumed.count '\n' : Int) ∧
      l1.pos.column = ((consumed.reverse.takeWhile (fun c => c != '\n')).length : Int) := by
  obtain ⟨pre, h1, h2, -, -⟩ := LexAfter_cursor U n (NewLexer input e) [] t l1 rfl h
  refine ⟨pre ++ t.2.2, by simpa [NewLexer, NewReader] using h1, ?_, ?_⟩
  · rw [h2, cursorAfter_line]
  · rw [h2, cursorAfter_column]
    simp

/-- C12, at the inputs `"7\n12+3"` and `"7\n12"`: after the second call the
cursor is at line 2, column 2, whether `+` was read and pushed back or the input
ended. -/
theorem Lex_cursor_consistent_witness :
    LexAfter latin1 1 (NewLexer "7\n12+3".toList Error.EOF) =
      Run.done ((⟨2, 1⟩, INT, "12".toList), ⟨⟨2, 2⟩, ⟨"+3".toList, Error.EOF, none⟩⟩) ∧
    (∃ consumed, "7\n12+3".toList = consumed ++ "+3".toList ∧
      (2 : Int) = 1 + (consumed.count '\n' : Int) ∧
      (2 : Int) = ((consumed.reverse.takeWhile (fun c => c != '\n')).length : Int)) ∧
    LexAfter latin1 1 (NewLexer "7\n12".toList Error.EOF) =
      Run.done ((⟨2, 1⟩, INT, "12".toList), ⟨⟨2, 2⟩, ⟨[], Error.EOF, none⟩⟩) :=
  ⟨by decide,
    Lex_cursor_consistent latin1 "7\n12+3".toList Error.EOF 1 (⟨2, 1⟩, INT, "12".toList)
      ⟨⟨2, 2⟩, ⟨"+3".toList, Error.EOF, none⟩⟩ (by decide),
    by decide⟩

/-! ## Faults of the source -/

/-- C13 (a fault of the source is not taken for the end of the input). Let the
source report an error other than `io.EOF` once its data is exhausted. When the
call of `Lex` reads there, in the main loop (the remaining input holds only
white space and newlines) or inside the integer or the identifier sub-scanner
with a run already accumulated (the run reaches the end of the data), the call
returns no token: it panics with the error of the source. -/
theorem Lex_source_fault (U : UnicodeTables) (l : Lexer)
    (hne : l.reader.endErr ≠ Error.EOF)
    (hread : (∀ c ∈ l.reader.buf, isBlank U c = true) ∨
      (∃ w d rest, l.reader.buf = w ++ d :: rest ∧ (∀ c ∈ w, isBlank U c = true) ∧
        U.IsDigit d = true ∧ ∀ c ∈ rest, U.IsDigit c = true) ∨
      (∃ w c rest, l.reader.buf = w ++ c :: rest ∧ (∀ x ∈ w, isBlank U x = true) ∧
        (U.IsLetter c = true ∨ c = '_') ∧
        ∀ x ∈ rest, (U.IsLetter x || U.IsDigit x || x == '_') = true)) :
    Lex U l = Run.panic l.reader.endErr ∧
    (∀ t l1, Lex U l ≠ Run.done (t, l1)) := by
  have key : Lex U l = Run.panic l.reader.endErr := by
    obtain ⟨p, ⟨buf, e, lr⟩⟩ := l
    simp only at hne hread ⊢
    rcases hread with hb | ⟨w, d, rest, rfl, hw, hd, hrest⟩ | ⟨w, c, rest, rfl, hw, hc, hrest⟩
    · have := Lex_skip U buf [] p e lr hb
      rw [List.append_nil] at this
      rw [this]
      exact LexLoop_nil_fault U _ _ e lr hne
    · rw [Lex_skip U w _ p e lr hw, List.length_cons]
      exact LexLoop_digit_fault U _ _ d rest e lr hd
        (List.dropWhile_eq_nil_iff.mpr hrest) hne
    · rw [Lex_skip U w _ p e lr hw, List.length_cons]
      have hc1 : (U.IsLetter c || c == '_') = true := by
        rcases hc with h | h <;> simp [h]
      exact LexLoop_ident_fault U _ _ c rest e lr hc1
        (List.dropWhile_eq_nil_iff.mpr hrest) hne
  refine ⟨key, fun t l1 h => ?_⟩
  rw [key] at h
  exact Run.noConfusion h

/-- C13, at the data `" 12"` of a source that then fails: the call panics with
the fault and returns neither `EOF` nor `INT "12"`. -/
theorem Lex_source_fault_witness :
    (NewLexer " 12".toList (Error.fault 5)).reader.endErr ≠ Error.EOF ∧
    (Lex latin1 (NewLexer " 12".toList (Error.fault 5)) =
        Run.panic (NewLexer " 12".toList (Error.fault 5)).reader.endErr ∧
      (∀ t l1, Lex latin1 (NewLexer " 12".toList (Error.fault 5)) ≠ Run.done (t, l1))) ∧
    Lex latin1 (NewLexer " 12".toList (Error.fault 5)) = Run.panic (Error.fault 5) ∧
    Lex latin1 (NewLexer " \n".toList (Error.fault 5)) = Run.panic (Error.fault 5) ∧
    Lex latin1 (NewLexer "ab1".toList (Error.fault 5)) = Run.panic (Error.fault 5) :=
  ⟨by decide,
    Lex_source_fault latin1 (NewLexer " 12".toList (Error.fault 5)) (by decide)
      (Or.inr (Or.inl ⟨" ".toList, '1', "2".toList, by decide, by decide, by decide,
        by decide⟩)),
    by decide, by decide, by decide⟩

/-! ## A concrete scenario -/

/-- C14 (the scenario `"x = 10 + 20;"`). Scanning this input from a fresh
scanner, with the tables of Go on Latin-1, gives in order `IDENT "x"`,
`ASSIGN "="`, `INT "10"`, `ADD "+"`, `INT "20"`, `SEMI ";"`, and the seventh
call returns `EOF` with the empty lexeme. -/
theorem scan_assignment_scenario :
    scan latin1 (NewLexer "x = 10 + 20;".toList Error.EOF) =
      Run.done [(⟨1, 1⟩, IDENT, "x".toList), (⟨1, 3⟩, ASSIGN, "=".toList),
        (⟨1, 5⟩, INT, "10".toList), (⟨1, 8⟩, ADD, "+".toList),
        (⟨1, 10⟩, INT, "20".toList), (⟨1, 12⟩, SEMI, ";".toList)] ∧
    LexAfter latin1 6 (NewLexer "x = 10 + 20;".toList Error.EOF) =
      Run.done ((⟨1, 12⟩, EOF, []), ⟨⟨1, 12⟩, ⟨[], Error.EOF, none⟩⟩) := by
  constructor <;> decide

/-! ## Range of positions -/

/-- C15 (range of positions). `NewLexer` starts the cursor at line 1, column 0.
After any number of calls of `Lex` on a scanner made by `NewLexer`, the position
returned and the cursor left both have a line of at least 1 and a column of at
least 0. A pushback that follows a read gives the cursor the value it had before
that read, so the decrement of `backup` undoes an increment and does not take
the column below zero. -/
theorem Lex_position_range (U : UnicodeTables) (input : List Char) (e : Error) (n : Nat)
    (t : Tok) (l1 : Lexer)
    (h : LexAfter U n (NewLexer input e) = Run.done (t, l1)) :
    (NewLexer input e).pos = ⟨1, 0⟩ ∧
    (1 ≤ t.1.line ∧ 0 ≤ t.1.column) ∧
    (1 ≤ l1.pos.line ∧ 0 ≤ l1.pos.column) ∧
    (∀ (p : Position) (r : Char) (rs : List Char) (err : Error),
      backup ⟨⟨p.line, p.column + 1⟩, ⟨rs, err, some r⟩⟩ =
        Run.done ⟨p, ⟨r :: rs, err, none⟩⟩) := by
  obtain ⟨pre, -, h2, h3, h4⟩ := LexAfter_cursor U n (NewLexer input e) [] t l1 rfl h
  have hline : ∀ w : List Char, 1 ≤ (cursorAfter ⟨1, 0⟩ w).line := by
    intro w
    rw [cursorAfter_line]
    show (1 : Int) ≤ 1 + (w.count '\n' : Int)
    omega
  have hcol : ∀ w : List Char, 0 ≤ (cursorAfter ⟨1, 0⟩ w).column := by
    intro w
    rw [cursorAfter_column]
    simp only [ite_self]
    omega
  refine ⟨rfl, ?_, ?_, fun p r rs err => backup_after_read p r rs err⟩
  · by_cases heof : t.2.1 = EOF
    · rw [(h3 heof).2]
      exact ⟨hline pre, hcol pre⟩
    · rw [(h4 heof).2]
      have := hcol pre
      exact ⟨hline pre, by show (0 : Int) ≤ (cursorAfter ⟨1, 0⟩ pre).column + 1; omega⟩
  · rw [h2]
    exact ⟨hline _, hcol _⟩

/-- C15, at the input `"a\n1"` after two calls: `INT "1"` at line 2, column 1. -/
theorem Lex_position_range_witness :
    LexAfter latin1 1 (NewLexer "a\n1".toList Error.EOF) =
      Run.done ((⟨2, 1⟩, INT, "1".toList), ⟨⟨2, 1⟩, ⟨[], Error.EOF, none⟩⟩) ∧
    ((NewLexer "a\n1".toList Error.EOF).pos = ⟨1, 0⟩ ∧
    ((1 : Int) ≤ 2 ∧ (0 : Int) ≤ 1) ∧
    ((1 : Int) ≤ 2 ∧ (0 : Int) ≤ 1) ∧
    (∀ (p : Position) (r : Char) (rs : List Char) (err : Error),
      backup ⟨⟨p.line, p.column + 1⟩, ⟨rs, err, some r⟩⟩ =
        Run.done ⟨p, ⟨r :: rs, err, none⟩⟩)) :=
  ⟨by decide,
    Lex_position_range latin1 "a\n1".toList Error.EOF 1 (⟨2, 1⟩, INT, "1".toList)
      ⟨⟨2, 1⟩, ⟨[], Error.EOF, none⟩⟩ (by decide)⟩

/-! ## Display names of the kinds -/

/-- C16, as the code has it. For each of the ten declared kinds, the values 0
to 9, `Token.String` returns its display name, `"EOF"`, `"ILLEGAL"`, `"IDENT"`,
`"INT"`, `";"`, `"+"`, `"-"`, `"*"`, `"/"`, `"="`; these are the only values of
`Token` on which it returns; and every kind a call of `Lex` returns is one of
the ten, so `Token.String` returns on it. -/
theorem Token_String_on_declared_kinds (U : UnicodeTables) (l : Lexer) (t : Tok) (l1 : Lexer)
    (h : Lex U l = Run.done (t, l1)) :
    ([EOF, ILLEGAL, IDENT, INT, SEMI, ADD, SUB, MUL, DIV, ASSIGN].map Token.String =
      [some "EOF".toList, some "ILLEGAL".toList, some "IDENT".toList, some "INT".toList,
        some ";".toList, some "+".toList, some "-".toList, some "*".toList, some "/".toList,
        some "=".toList]) ∧
    (∀ k : Token, (∃ s, Token.String k = some s) ↔ 0 ≤ k ∧ k ≤ 9) ∧
    t.2.1 ∈ [EOF, ILLEGAL, IDENT, INT, SEMI, ADD, SUB, MUL, DIV, ASSIGN] ∧
    (∃ s, Token.String t.2.1 = some s) := by
  have hiff : ∀ k : Token, (∃ s, Token.String k = some s) ↔ 0 ≤ k ∧ k ≤ 9 := by
    intro k
    constructor
    · rintro ⟨s, hs⟩
      unfold Token.String at hs
      split_ifs at hs with h0
      refine ⟨h0, ?_⟩
      by_contra h9
      have h9a : (9 : Int) < k := not_le.mp h9
      have hlen : tokens.length ≤ k.toNat := by
        show 10 ≤ Int.toNat k
        omega
      rw [List.getElem?_eq_none hlen] at hs
      exact Option.noConfusion hs
    · rintro ⟨h0, h9⟩
      interval_cases k <;> exact ⟨_, rfl⟩
  have hk := (Lex_kind_lexeme U l t l1 h).1
  refine ⟨by decide, hiff, hk, ?_⟩
  rw [hiff]
  simp only [List.mem_cons, List.mem_singleton, List.not_mem_nil, or_false] at hk
  rcases hk with h | h | h | h | h | h | h | h | h | h <;> rw [h] <;> decide

/-- C16, at the first token of `"+"`: kind `ADD`, displayed as `"+"`. -/
theorem Token_String_on_declared_kinds_witness :
    Lex latin1 (NewLexer "+".toList Error.EOF) =
      Run.done ((⟨1, 1⟩, ADD, "+".toList), ⟨⟨1, 1⟩, ⟨[], Error.EOF, some '+'⟩⟩) ∧
    (([EOF, ILLEGAL, IDENT, INT, SEMI, ADD, SUB, MUL, DIV, ASSIGN].map Token.String =
      [some "EOF".toList, some "ILLEGAL".toList, some "IDENT".toList, some "INT".toList,
        some ";".toList, some "+".toList, some "-".toList, some "*".toList, some "/".toList,
        some "=".toList]) ∧
    (∀ k : Token, (∃ s, Token.String k = some s) ↔ 0 ≤ k ∧ k ≤ 9) ∧
    ADD ∈ [EOF, ILLEGAL, IDENT, INT, SEMI, ADD, SUB, MUL, DIV, ASSIGN] ∧
    (∃ s, Token.String ADD = some s)) :=
  ⟨by decide,
    Token_String_on_declared_kinds latin1 (NewLexer "+".toList Error.EOF)
      (⟨1, 1⟩, ADD, "+".toList) ⟨⟨1, 1⟩, ⟨[], Error.EOF, some '+'⟩⟩ (by decide)⟩

/-- C16 as stated fails: `Token` is an integer type, and on the values 10 and -1
the lookup `tokens[int(t)]` is out of range, so `Token.String` panics instead of
returning a display name. -/
theorem Token_String_out_of_range :
    Token.String 10 = none ∧ Token.String (-1) = none ∧
    ¬ ∀ k : Token, ∃ s, Token.String k = some s := by
  refine ⟨by decide, by decide, fun h => ?_⟩
  obtain ⟨s, hs⟩ := h 10
  have h10 : Token.String 10 = none := by decide
  rw [h10] at hs
  exact Option.noConfusion hs

/-! ## Lexemes and pushback -/

/-- C17 (the lexeme is the substring matched). A call of `Lex` that finds
remaining input `r`, returns lexeme `x` and leaves remaining input `r1` has
`r = w ++ x ++ r1` with `w` made of white space and newlines only; `x` is empty
exactly when the kind is `EOF`, and then `r1` is empty; and for `ILLEGAL` and
the operator kinds `x` has length 1. -/
theorem Lex_lexeme_is_matched_substring (U : UnicodeTables) (l : Lexer) (t : Tok) (l1 : Lexer)
    (h : Lex U l = Run.done (t, l1)) :
    ∃ w, l.reader.buf = w ++ t.2.2 ++ l1.reader.buf ∧
      (∀ c ∈ w, isBlank U c = true) ∧
      (t.2.2 = [] ↔ t.2.1 = EOF) ∧
      (t.2.1 = EOF → l1.reader.buf = []) ∧
      (t.2.1 ∈ [ILLEGAL, SEMI, ADD, SUB, MUL, DIV, ASSIGN] → t.2.2.length = 1) := by
  obtain ⟨w, hbuf, -, hw, -, -, -, heof, hne⟩ := Lex_step U l t l1 h
  refine ⟨w, hbuf, hw, ⟨fun hx => ?_, fun hk => (heof hk).1⟩, fun hk => ?_,
    (Lex_kind_lexeme U l t l1 h).2⟩
  · by_contra hk
    exact (hne hk).1 hx
  · rw [(heof hk).2.2]

/-- C17, at the input `" ;x"`: `w` is `" "`, the lexeme `";"`, and `"x"` remains. -/
theorem Lex_lexeme_is_matched_substring_witness :
    Lex latin1 (NewLexer " ;x".toList Error.EOF) =
      Run.done ((⟨1, 2⟩, SEMI, ";".toList), ⟨⟨1, 2⟩, ⟨"x".toList, Error.EOF, some ';'⟩⟩) ∧
    (∃ w, " ;x".toList = w ++ ";".toList ++ "x".toList ∧
      (∀ c ∈ w, isBlank latin1 c = true) ∧
      (";".toList = [] ↔ SEMI = EOF) ∧
      (SEMI = EOF → "x".toList = []) ∧
      (SEMI ∈ [ILLEGAL, SEMI, ADD, SUB, MUL, DIV, ASSIGN] → ";".toList.length = 1)) :=
  ⟨by decide,
    Lex_lexeme_is_matched_substring latin1 (NewLexer " ;x".toList Error.EOF)
      (⟨1, 2⟩, SEMI, ";".toList) ⟨⟨1, 2⟩, ⟨"x".toList, Error.EOF, some ';'⟩⟩ (by decide)⟩

/-- C18 (the failure branch of `backup` is not reached). A `backup` on the
reader state left by a successful `ReadRune`, which is where `Lex`, `lexInt` and
`lexIdent` call it, does not fail and gives the rune back, leaving none to push
back again; `backup` fails exactly when there is no such rune. In a call of
`Lex` that never happens: on a source that ends with `io.EOF` the call returns a
token; a call that panics does so with the error of a failed read of the source;
and unless the source itself reports `ErrInvalidUnreadRune`, the call does not
panic with that error, which is the only one `backup` raises. -/
theorem Lex_backup_never_fails (U : UnicodeTables) (l : Lexer) :
    (∀ (p : Position) (b : Reader) (r : Char) (b1 : Reader),
      ReadRune b = (Except.ok r, b1) →
        backup ⟨p, b1⟩ = Run.done ⟨⟨p.line, p.column - 1⟩, ⟨b.buf, b.endErr, none⟩⟩) ∧
    (∀ l0 : Lexer, l0.reader.lastRune = none ↔
      backup l0 = Run.panic Error.ErrInvalidUnreadRune) ∧
    (l.reader.endErr = Error.EOF → ∃ t l1, Lex U l = Run.done (t, l1)) ∧
    (∀ err, Lex U l = Run.panic err → err = l.reader.endErr ∧ err ≠ Error.EOF) ∧
    (l.reader.endErr ≠ Error.ErrInvalidUnreadRune →
      Lex U l ≠ Run.panic Error.ErrInvalidUnreadRune) := by
  refine ⟨?_, ?_, Lex_returns U l, Lex_panic U l, fun h3 h4 => h3 (Lex_panic U l _ h4).1.symm⟩
  · intro p b r b1 hr
    obtain ⟨buf, e, lr⟩ := b
    cases buf with
    | nil => simp [ReadRune] at hr
    | cons c cs =>
      simp only [ReadRune, Prod.mk.injEq, Except.ok.injEq] at hr
      obtain ⟨rfl, rfl⟩ := hr
      simp [backup, UnreadRune]
  · intro l0
    obtain ⟨p, ⟨buf, e, lr⟩⟩ := l0
    cases lr <;> simp [backup, UnreadRune]

/-- C18, at the input `"12+"` and at the data `"12"` of a source that then
fails with fault 5: the first call returns `INT "12"` after one pushback, the
second panics with the fault of the source. -/
theorem Lex_backup_never_fails_witness :
    ((∀ (p : Position) (b : Reader) (r : Char) (b1 : Reader),
      ReadRune b = (Except.ok r, b1) →
        backup ⟨p, b1⟩ = Run.done ⟨⟨p.line, p.column - 1⟩, ⟨b.buf, b.endErr, none⟩⟩) ∧
    (∀ l0 : Lexer, l0.reader.lastRune = none ↔
      backup l0 = Run.panic Error.ErrInvalidUnreadRune) ∧
    ((NewLexer "12+".toList Error.EOF).reader.endErr = Error.EOF →
      ∃ t l1, Lex latin1 (NewLexer "12+".toList Error.EOF) = Run.done (t, l1)) ∧
    (∀ err, Lex latin1 (NewLexer "12+".toList Error.EOF) = Run.panic err →
      err = (NewLexer "12+".toList Error.EOF).reader.endErr ∧ err ≠ Error.EOF) ∧
    ((NewLexer "12+".toList Error.EOF).reader.endErr ≠ Error.ErrInvalidUnreadRune →
      Lex latin1 (NewLexer "12+".toList Error.EOF) ≠ Run.panic Error.ErrInvalidUnreadRune)) ∧
    Lex latin1 (NewLexer "12+".toList Error.EOF) =
      Run.done ((⟨1, 1⟩, INT, "12".toList), ⟨⟨1, 2⟩, ⟨"+".toList, Error.EOF, none⟩⟩) ∧
    Lex latin1 (NewLexer "12".toList (Error.fault 5)) = Run.panic (Error.fault 5) :=
  ⟨Lex_backup_never_fails latin1 (NewLexer "12+".toList Error.EOF), by decide, by decide⟩

/-- C19 (white space separates token streams). For inputs `a` and `b` and a
white-space rune or newline `w`, the kinds and lexemes of the tokens of
`a ++ [w] ++ b` before `EOF` are those of `a` followed by those of `b`. -/
theorem scan_blank_separates (U : UnicodeTables) (a b : List Char) (w : Char)
    (hw : isBlank U w = true) :
    ∃ ta tb tab, scan U (NewLexer a Error.EOF) = Run.done ta ∧
      scan U (NewLexer b Error.EOF) = Run.done tb ∧
      scan U (NewLexer (a ++ [w] ++ b) Error.EOF) = Run.done tab ∧
      tab.map kindLexeme = ta.map kindLexeme ++ tb.map kindLexeme := by
  obtain ⟨ta, hsa, hka⟩ := mainLoop_tokensOf U (a.length + 1) (NewLexer a Error.EOF) rfl
    (Nat.lt_succ_self _)
  obtain ⟨tb, hsb, hkb⟩ := mainLoop_tokensOf U (b.length + 1) (NewLexer b Error.EOF) rfl
    (Nat.lt_succ_self _)
  obtain ⟨tab, hsab, hkab⟩ := mainLoop_tokensOf U ((a ++ [w] ++ b).length + 1)
    (NewLexer (a ++ [w] ++ b) Error.EOF) rfl (Nat.lt_succ_self _)
  refine ⟨ta, tb, tab, hsa, hsb, hsab, ?_⟩
  rw [hka, hkb, hkab]
  simp only [NewLexer, NewReader, List.append_assoc, List.singleton_append]
  exact tokensOf_append_blank U (a.length + 1) a _ (b.length + 1) w b hw (Nat.lt_succ_self _)
    (Nat.lt_succ_self _) (Nat.lt_succ_self _)

/-- C19, at `a = "x1"`, `w` the newline and `b = "+ 2"`. -/
theorem scan_blank_separates_witness :
    isBlank latin1 '\n' = true ∧
    (∃ ta tb tab, scan latin1 (NewLexer "x1".toList Error.EOF) = Run.done ta ∧
      scan latin1 (NewLexer "+ 2".toList Error.EOF) = Run.done tb ∧
      scan latin1 (NewLexer ("x1".toList ++ ['\n'] ++ "+ 2".toList) Error.EOF) = Run.done tab ∧
      tab.map kindLexeme = ta.map kindLexeme ++ tb.map kindLexeme) ∧
    scan latin1 (NewLexer ("x1".toList ++ ['\n'] ++ "+ 2".toList) Error.EOF) =
      Run.done [(⟨1, 1⟩, IDENT, "x1".toList), (⟨2, 1⟩, ADD, "+".toList),
        (⟨2, 3⟩, INT, "2".toList)] :=
  ⟨by decide, scan_blank_separates latin1 "x1".toList "+ 2".toList '\n' (by decide),
    by decide⟩

end GoLexer
